import Mathlib

/-!
Formal model of the python-Wappalyzer detection engine
(src/Wappalyzer/Wappalyzer.py), as a shallow embedding.

Conventions of the embedding:
* Python dicts are association lists with unique keys; assignment
  overwrites the value of an existing key in place (keeping its
  position) and otherwise appends, exactly like insertion-ordered
  Python dicts.
* Python sets are lists observed through membership only (set
  iteration order is unspecified in Python).
* Mutation of the shared app dicts is explicit state passing: every
  function that mutates an app in Python returns the updated app here.
* Code that can raise returns Except String.
* The re module is external to the repository.  A compiled regular
  expression is modelled by its observable behaviour: a search
  predicate and a findall function.  The two concrete regular
  expressions that the claims exercise (the literal-v pattern of the
  version-extraction example and the ternary template pattern built by
  set_detected_app) are given their Python semantics by executable
  functions below.
-/

/-! ### Python string primitives -/

/-- Model of str.lower on ASCII letters (header and meta keys in the
signature corpus are ASCII; non-ASCII case mapping of the external str
type is out of scope). -/
def pyLowerChar (c : Char) : Char :=
  if 65 ≤ c.toNat ∧ c.toNat ≤ 90 then Char.ofNat (c.toNat + 32) else c

/-- Model of str.lower, character by character. -/
def pyLower (s : String) : String :=
  (s.toList.map pyLowerChar).asString

/-- Decides whether the first list is a prefix of the second. -/
def lstartsWith : List Char → List Char → Bool
  | [], _ => true
  | _ :: _, [] => false
  | a :: as, b :: bs => a = b && lstartsWith as bs

/-- Worker for pyReplace: scans the text left to right; on an
occurrence of old it emits new and skips the rest of the occurrence
(the counter argument counts characters that remain to be skipped).
Non-overlapping left-to-right replacement, the semantics of Python
str.replace with a non-empty needle. -/
def replaceGo (old new : List Char) : List Char → Nat → List Char
  | [], _ => []
  | c :: rest, 0 =>
      if lstartsWith old (c :: rest) then new ++ replaceGo old new rest (old.length - 1)
      else c :: replaceGo old new rest 0
  | _ :: rest, k + 1 => replaceGo old new rest k

/-- Model of Python str.replace.  The engine never calls it with an
empty needle (needles are a backslash followed by a digit, or a
nonempty ternary match), so the empty-needle case returns the string
unchanged. -/
def pyReplace (s old new : String) : String :=
  match old.toList with
  | [] => s
  | _ :: _ => (replaceGo old.toList new.toList s.toList 0).asString

/-- Worker for pySplit: scans left to right accumulating the current
segment (reversed); on an occurrence of the separator it emits the
segment and skips the remainder of the separator occurrence, like
replaceGo.  Non-overlapping left-to-right splitting, the semantics of
Python str.split with a non-empty separator. -/
def splitGo (sep : List Char) : List Char → Nat → List Char → List (List Char)
  | [], _, cur => [cur.reverse]
  | c :: rest, 0, cur =>
      if lstartsWith sep (c :: rest) then cur.reverse :: splitGo sep rest (sep.length - 1) []
      else splitGo sep rest 0 (c :: cur)
  | _ :: rest, k + 1, cur => splitGo sep rest k cur

/-- Model of Python str.split with an explicit separator.  Python
raises ValueError on an empty separator; the engine only splits on
the two-character escaped semicolon and on the colon, so that case is
mapped to the whole string. -/
def pySplit (s sep : String) : List String :=
  match sep.toList with
  | [] => [s]
  | _ :: _ => (splitGo sep.toList s.toList 0 []).map List.asString

/-- Model of the colon join of prepare_pattern. -/
def intercalateColon : List String → String
  | [] => ""
  | [x] => x
  | x :: rest => x ++ ":" ++ intercalateColon rest

/-! ### The compiled regular expression interface -/

/-- One element of a Python re.findall result: a bare string (regex
with zero or one capture group) or a tuple of group strings (two or
more groups). -/
inductive FindallItem where
  | str : String → FindallItem
  | tuple : List String → FindallItem
deriving DecidableEq

/-- The tuple of capture groups of one findall item, after the
isinstance(matches, str) wrapping step of set_detected_app: a bare
string is treated as a one-group tuple. -/
def itemGroups : FindallItem → List String
  | .str s => [s]
  | .tuple l => l

/-- Observable behaviour of a compiled case-insensitive regular
expression: re.search as a Boolean predicate and re.findall. -/
structure CRegex where
  search : String → Bool
  findall : String → List FindallItem

/-! ### The findall semantics of the pattern v([0-9.]+)

A single left-to-right scan with the states of the obvious matcher:
looking for a v, just after a v, or inside the captured run of
[0-9.]+.  After a failed attempt the scan advances one character;
after a successful match it resumes right after the match, which is
re.findall behaviour for this pattern. -/

/-- Is the character in the class [0-9.]? -/
def digitDot (c : Char) : Bool := c.isDigit || c = '.'

/-- Is the character a v under re.IGNORECASE? -/
def isV (c : Char) : Bool := c = 'v' || c = 'V'

/-- Scanner state for the pattern v([0-9.]+). -/
inductive VScan where
  | scan
  | afterV
  | run (acc : List Char)

/-- One pass of the scanner; acc is kept reversed. -/
def findVAux : List Char → VScan → List String
  | [], .run acc => [acc.reverse.asString]
  | [], _ => []
  | c :: rest, .scan => findVAux rest (if isV c then .afterV else .scan)
  | c :: rest, .afterV =>
      findVAux rest (if digitDot c then .run [c] else if isV c then .afterV else .scan)
  | c :: rest, .run acc =>
      if digitDot c then findVAux rest (.run (c :: acc))
      else acc.reverse.asString :: findVAux rest (if isV c then .afterV else .scan)

/-- All captures of v([0-9.]+) in the string, in order. -/
def findV (s : String) : List String :=
  findVAux s.toList .scan

/-- The compiled pattern re.compile(r"v([0-9.]+)", re.I): a single
capture group, so findall returns bare strings. -/
def cregexVDigits : CRegex where
  search := fun s => !(findV s).isEmpty
  findall := fun s => (findV s).map .str

/-- A compiled pattern whose search matches everything and that
carries no capture groups worth reporting. -/
def cregexAlways : CRegex where
  search := fun _ => true
  findall := fun _ => []

/-- A compiled pattern that never matches, like the fallback regex
(?!x)x substituted for uncompilable expressions. -/
def cregexNever : CRegex where
  search := fun _ => false
  findall := fun _ => []

/-! ### Patterns (output of prepare_pattern, typed view)

prepare_pattern stores the raw expression under string, the compiled
regex under regex, and the remaining escaped key:value attributes.
The engine reads only confidence and version of those.  The
confidence attribute is stored as a string and converted with int()
by set_detected_app; it is carried here already converted (entries
whose attribute int() cannot parse crash the reference and are
outside the model). -/

structure Pattern where
  string : String
  regex : CRegex
  confidence : Option Int
  version : Option String

/-- Confidence weight of a firing pattern: the parsed confidence
attribute if present, 100 otherwise (set_detected_app lines 292-298). -/
def patternWeight (p : Pattern) : Int :=
  match p.confidence with
  | none => 100
  | some n => n

/-! ### The ternary search of set_detected_app

set_detected_app searches the version template with the regular
expression  backslash i [?] ([^:]+):(.*)$  (re.search, leftmost
match).  For a match starting at position p the template suffix from p
must begin with the literal tag backslash-i-questionmark, followed by
at least one non-colon character, a colon, and the rest of the
template; group 0 is then the whole suffix from p (the trailing (.*)$
reaches the end), group 1 the run up to the first colon, group 2
everything after it.  The dot is modelled as matching any character;
version templates contain no newline. -/

/-- Try the ternary pattern anchored at the head of the suffix. -/
def ternaryAt (tag s : List Char) : Option (List Char × List Char × List Char) :=
  if lstartsWith tag s then
    let rest := s.drop tag.length
    let a := rest.takeWhile (fun c => c ≠ ':')
    if a.isEmpty then none
    else if a.length = rest.length then none
    else some (s, a, rest.drop (a.length + 1))
  else none

/-- Leftmost match of the ternary pattern: try every suffix in order. -/
def ternaryScan (tag : List Char) : List Char → Option (List Char × List Char × List Char)
  | [] => ternaryAt tag []
  | c :: rest =>
      match ternaryAt tag (c :: rest) with
      | some r => some r
      | none => ternaryScan tag rest

/-- Model of re.search of the compiled ternary pattern for group index
i, returning (group 0, group 1, group 2). -/
def ternarySearch (i : Nat) (version : String) : Option (String × String × String) :=
  (ternaryScan (("\\" ++ toString i ++ "?").toList) version.toList).map
    (fun r => (r.1.asString, r.2.1.asString, r.2.2.asString))

/-- The ternary substitution step of set_detected_app for group index
i with capture text m: if the ternary pattern matches, replace its
whole match with group 1 when m is non-empty and group 2 otherwise. -/
def ternaryStep (i : Nat) (m version : String) : String :=
  match ternarySearch i version with
  | some r => pyReplace version r.1 (if m ≠ "" then r.2.1 else r.2.2)
  | none => version

/-- Resolution of the version template against one findall occurrence
(the inner loop of set_detected_app lines 310-318): for each group
index, first the ternary substitution, then replacement of every
remaining backreference with the group text. -/
def resolveOccurrence (template : String) (groups : List String) : String :=
  groups.enum.foldl
    (fun version x =>
      pyReplace (ternaryStep (x.1 + 1) x.2 version) ("\\" ++ toString (x.1 + 1)) x.2)
    template

/-! ### Version list accumulation and ordering -/

/-- Lines 319-323 of set_detected_app: append a resolved version that
is non-empty and not already present; none models absence of the
versions key. -/
def addVersion (vs : Option (List String)) (v : String) : Option (List String) :=
  if v = "" then vs
  else
    match vs with
    | none => some [v]
    | some l => if v ∈ l then some l else some (l ++ [v])

/-- Stable insertion into a length-sorted list: the element goes in
front of the first element whose length is not smaller. -/
def insertVersion (v : String) : List String → List String
  | [] => [v]
  | x :: xs => if x.length < v.length then x :: insertVersion v xs else v :: x :: xs

/-- Model of sorted(versions, key=cmp_to_key(sort_app_versions)):
Python sorted is a stable sort and the comparator orders by string
length, so the result is the unique stable length-ascending
reordering, computed here by stable insertion sort. -/
def sortAppVersions (l : List String) : List String :=
  l.foldr insertVersion []

/-! ### The app record (one technology entry, prepared shape)

One Python app dict after prepare_app: the static signature fields
and the per-analysis mutable fields written by set_detected_app and
has_app.  cats defaults to the empty list, matching the
get("cats", []) read.  The confidence dict is created on first use in
Python; an absent dict and an empty dict are indistinguishable to
every reader, so it is a plain list here. -/

structure App where
  cats : List Int
  url : List Pattern
  headers : List (String × Pattern)
  script : List Pattern
  meta : List (String × Pattern)
  html : List Pattern
  implies : List String
  detected : Bool
  confidence : List (String × Int)
  confidenceTotal : Option Int
  versions : Option (List String)

/-- Python dict assignment on the confidence dict. -/
def dictInsert (d : List (String × Int)) (k : String) (v : Int) : List (String × Int) :=
  if d.any (fun e => e.1 = k) then d.map (fun e => if e.1 = k then (k, v) else e)
  else d ++ [(k, v)]

/-- An optional version list read as a list (a missing versions key
reads as no versions). -/
def optVersions (vs : Option (List String)) : List String :=
  vs.getD []

/-- The version list of an app, with absence read as the empty list. -/
def versionsList (a : App) : List String :=
  optVersions a.versions

/-- Model of set_app_version (lines 328-335): sort the version list
by ascending length if it exists. -/
def setAppVersion (a : App) : App :=
  match a.versions with
  | none => a
  | some l => { a with versions := some (sortAppVersions l) }

/-- Model of set_detected_app (lines 283-326).  Sets the detected
flag, records the confidence weight under the label
facet-space-key-expression (key already carries its trailing space
when non-empty), and, when the pattern has a version template,
resolves it against every findall occurrence of the matched value and
finally sorts the version list. -/
def setDetectedApp (a : App) (appType : String) (p : Pattern) (value : String) (key : String) : App :=
  let a := { a with detected := true }
  let key2 := if key ≠ "" then key ++ " " else key
  let label := appType ++ " " ++ key2 ++ p.string
  let a := { a with confidence := dictInsert a.confidence label (patternWeight p) }
  match p.version with
  | none => a
  | some template =>
      let allmatches := p.regex.findall value
      let a :=
        { a with
          versions :=
            allmatches.foldl
              (fun vs ms => addVersion vs (resolveOccurrence template (itemGroups ms)))
              a.versions }
      setAppVersion a

/-! ### Web pages and the match engine -/

/-- The evidence object: url, html, script urls, headers and meta as
plain mappings (the case-normalisation of header names is the business
of the HTTP library that builds the dict, outside this model). -/
structure WebPage where
  url : String
  html : String
  scripts : List String
  headers : List (String × String)
  meta : List (String × String)

/-- Key lookup in a page mapping (the in and [] operators). -/
def hlookup (d : List (String × String)) (k : String) : Option String :=
  (d.find? (fun e => e.1 = k)).map (fun e => e.2)

/-- The url facet loop of has_app: a match records a firing event but
does not touch has_app. -/
def urlFold (wp : WebPage) (pats : List Pattern) (a : App) : App :=
  pats.foldl
    (fun st p => if p.regex.search wp.url then setDetectedApp st ("url") p wp.url ("") else st)
    a

/-- The headers facet loop of has_app. -/
def headersFold (wp : WebPage) (pats : List (String × Pattern)) (s : App × Bool) : App × Bool :=
  pats.foldl
    (fun st np =>
      match hlookup wp.headers np.1 with
      | some content =>
          if np.2.regex.search content then
            (setDetectedApp st.1 ("headers") np.2 content np.1, true)
          else st
      | none => st)
    s

/-- The script facet loop of has_app (every pattern against every
script url). -/
def scriptFold (wp : WebPage) (pats : List Pattern) (s : App × Bool) : App × Bool :=
  pats.foldl
    (fun st p =>
      wp.scripts.foldl
        (fun st2 script =>
          if p.regex.search script then (setDetectedApp st2.1 ("script") p script (""), true)
          else st2)
        st)
    s

/-- The meta facet loop of has_app. -/
def metaFold (wp : WebPage) (pats : List (String × Pattern)) (s : App × Bool) : App × Bool :=
  pats.foldl
    (fun st np =>
      match hlookup wp.meta np.1 with
      | some content =>
          if np.2.regex.search content then
            (setDetectedApp st.1 ("meta") np.2 content np.1, true)
          else st
      | none => st)
    s

/-- The html facet loop of has_app. -/
def htmlFold (wp : WebPage) (pats : List Pattern) (s : App × Bool) : App × Bool :=
  pats.foldl
    (fun st p =>
      if p.regex.search wp.html then (setDetectedApp st.1 ("html") p wp.html (""), true)
      else st)
    s

/-- Sum of the weights recorded in the confidence dict (keys of a
Python dict are unique, so iterating keys and summing the looked-up
values is the sum of the entry values). -/
def confidenceSum (d : List (String × Int)) : Int :=
  (d.map (fun e => e.2)).sum

/-- Model of has_app (lines 237-281): run the five facet loops in
order, then, if one of the four non-url facets fired, store the
confidence total.  Returns the updated app and the has_app flag. -/
def hasApp (a : App) (wp : WebPage) : App × Bool :=
  let s0 := urlFold wp a.url a
  let s1 := headersFold wp a.headers (s0, false)
  let s2 := scriptFold wp a.script s1
  let s3 := metaFold wp a.meta s2
  let s4 := htmlFold wp a.html s3
  if s4.2 then ({ s4.1 with confidenceTotal := some (confidenceSum s4.1.confidence) }, true)
  else s4

/-! ### The Wappalyzer store and analyze -/

/-- The Wappalyzer instance: the category table (id to category dict,
as in apps.json) and the prepared app dicts. -/
structure Wapp where
  categories : List (String × List (String × String))
  apps : List (String × App)

/-- Key lookup among the app entries. -/
def dlookupA (d : List (String × App)) (k : String) : Option App :=
  (d.find? (fun e => e.1 = k)).map (fun e => e.2)

/-- The implies list of a named app, with the KeyError of a missing
name silently swallowed (get_implied_apps lines 344-347). -/
def impliesOf (w : Wapp) (name : String) : List String :=
  match dlookupA w.apps name with
  | some a => a.implies
  | none => []

/-- Python sets are modelled as lists observed through membership
only (set iteration order is unspecified); set union keeps the left
operand and adds the members of the right operand that are new. -/
def pyUnion (a b : List String) : List String :=
  a ++ b.filter (fun x => !(decide (x ∈ a)))

/-- The inner helper of get_implied_apps: the union of the implies
lists of the given names. -/
def impliedStep (w : Wapp) (apps : List String) : List String :=
  apps.foldl (fun acc a => pyUnion acc (impliesOf w a)) []

/-- Every name that occurs in some implies list of the store; the
working set of the expansion loop can only contain such names, which
bounds the number of loop iterations. -/
def impliesUniverseList (w : Wapp) : List String :=
  w.apps.foldr (fun e acc => e.2.implies ++ acc) []

/-- The while loop of get_implied_apps (lines 350-358), with explicit
fuel: while the last computed implied set is not contained in the
accumulated set, absorb it and recompute.  Fuel exhaustion returns
none; the termination theorem for claim C1 shows that with fuel
length (impliesUniverseList) + 1 the fixed point is always reached. -/
def impliedLoopFuel (w : Wapp) : Nat → List String → List String → Option (List String)
  | 0, _, _ => none
  | n + 1, all, implied =>
      if ∀ x ∈ implied, x ∈ all then some all
      else impliedLoopFuel w n (pyUnion all implied) (impliedStep w (pyUnion all implied))

/-- Model of get_implied_apps (lines 337-358). -/
def getImpliedAppsOpt (w : Wapp) (detected : List String) : Option (List String) :=
  impliedLoopFuel w ((impliesUniverseList w).length + 1) [] (impliedStep w detected)

/-- The transitively implied apps of a detected set. -/
def getImpliedApps (w : Wapp) (detected : List String) : List String :=
  (getImpliedAppsOpt w detected).getD []

/-- The store after the per-app has_app pass of analyze: every app
dict updated in place. -/
def analyzeStore (w : Wapp) (wp : WebPage) : Wapp :=
  { w with apps := w.apps.map (fun e => (e.1, (hasApp e.2 wp).1)) }

/-- The names whose has_app returned true in the analyze loop. -/
def directDetected (w : Wapp) (wp : WebPage) : List String :=
  (w.apps.filter (fun e => (hasApp e.2 wp).2)).map (fun e => e.1)

/-- Model of analyze (lines 382-396): run has_app over every entry
(mutating the store), then union in the implied apps.  Returns the
mutated store and the detected set. -/
def analyze (w : Wapp) (wp : WebPage) : Wapp × List String :=
  let w2 := analyzeStore w wp
  let detected := directDetected w wp
  (w2, pyUnion detected (getImpliedApps w2 detected))

/-- Model of get_versions (lines 370-374): indexing self.apps with an
unknown name raises KeyError; otherwise the version list, empty when
the versions key is absent. -/
def getVersions (w : Wapp) (name : String) : Except String (List String) :=
  match dlookupA w.apps name with
  | none => .error ("KeyError")
  | some a => .ok (versionsList a)

/-- Model of get_confidence (lines 376-380): KeyError on an unknown
name; otherwise the stored total, where the Python sentinel value []
for a never-detected app is modelled as none. -/
def getConfidence (w : Wapp) (name : String) : Except String (Option Int) :=
  match dlookupA w.apps name with
  | none => .error ("KeyError")
  | some a => .ok a.confidenceTotal

/-- Model of get_categories (lines 360-368).  The cats list is read
with get("cats", []) so an unknown app name yields the empty list; but
each id is mapped through categories.get(str(id), "") followed by
.get("name", ""), and when the id is unknown the first get returns the
string default on which the second get raises AttributeError. -/
def getCategories (w : Wapp) (name : String) : Except String (List String) :=
  let catNums :=
    match dlookupA w.apps name with
    | some a => a.cats
    | none => []
  catNums.mapM
    (fun n =>
      match (w.categories.find? (fun e => e.1 = toString n)).map (fun e => e.2) with
      | some cat => .ok (((cat.find? (fun e => e.1 = "name")).map (fun e => e.2)).getD (""))
      | none => .error ("AttributeError: str object has no attribute get"))

/-- Model of analyze_with_versions (lines 398-409): analyze, then
get_versions on every detected name against the mutated store;
get_versions raises on names that are not store keys.  Python iterates
the detected set in unspecified order; the model iterates the list
representing it, which has the same members and hence the same success
or failure behaviour and the same resulting mapping. -/
def analyzeWithVersions (w : Wapp) (wp : WebPage) : Except String (List (String × List String)) :=
  let r := analyze w wp
  r.2.mapM (fun name => (getVersions r.1 name).map (fun vs => (name, vs)))

/-! ### Untyped value model for prepare_app (claim C7)

Signature-store normalisation works on raw JSON-shaped values, so it
is modelled on an untyped Python-value type.  A compiled regular
expression object is represented by the pregex constructor carrying
the source expression; the never-matching fallback substituted for an
uncompilable expression is folded into this abstract constructor,
since regex syntax validity is semantics of the external re module. -/

inductive PVal where
  | pstr : String → PVal
  | pint : Int → PVal
  | plist : List PVal → PVal
  | pdict : List (String × PVal) → PVal
  | pregex : String → PVal

/-- A Python dict of values. -/
abbrev PDict := List (String × PVal)

/-- Dict read access. -/
def pdictLookup (d : PDict) (k : String) : Option PVal :=
  (d.find? (fun e => e.1 = k)).map (fun e => e.2)

/-- Python dict assignment: overwrite in place or append. -/
def pdictAssign (d : PDict) (k : String) (v : PVal) : PDict :=
  if d.any (fun e => e.1 = k) then d.map (fun e => if e.1 = k then (k, v) else e)
  else d ++ [(k, v)]

/-- Model of prepare_pattern (lines 211-235): split the raw pattern
string on the escaped semicolon; segment 0 gives the string and regex
attributes, every later segment with a colon contributes a key:value
attribute.  Calling it on anything but a string (as happens when
prepare_app is re-applied to an already-prepared app, whose pattern
slots hold attribute dicts) raises AttributeError at the split call. -/
def preparePattern : PVal → Except String PVal
  | .pstr s =>
      match pySplit s ("\\;") with
      | [] => .ok (.pdict [])
      | e0 :: restSegs =>
          .ok (.pdict (restSegs.foldl
            (fun attrs expr =>
              match pySplit expr (":") with
              | [] => attrs
              | [_] => attrs
              | kk :: rest => pdictAssign attrs kk (.pstr (intercalateColon rest)))
            [(("string"), .pstr e0), (("regex"), .pregex e0)]))
  | _ => .error ("AttributeError: object has no attribute split")

/-- Step 1 of prepare_app for one key: default a missing value to the
empty list and wrap a non-list value in a singleton list. -/
def listifyKey (app : PDict) (k : String) : PDict :=
  match pdictLookup app k with
  | none => pdictAssign app k (.plist [])
  | some (.plist _) => app
  | some v => pdictAssign app k (.plist [v])

/-- Step 2 of prepare_app for one key: default a missing value to the
empty dict. -/
def defaultDictKey (app : PDict) (k : String) : PDict :=
  match pdictLookup app k with
  | none => pdictAssign app k (.pdict [])
  | some _ => app

/-- Step 3 of prepare_app: wrap a non-dict meta value as a generator
entry. -/
def wrapMetaGenerator (app : PDict) : PDict :=
  match pdictLookup app ("meta") with
  | some (.pdict _) => app
  | some v => pdictAssign app ("meta") (.pdict [(("generator"), v)])
  | none => app

/-- The dict comprehension of step 4: rebuild a dict with lower-cased
keys.  Iterating any non-dict value raises. -/
def pyLowerDict : PVal → Except String PVal
  | .pdict entries =>
      .ok (.pdict (entries.foldl (fun acc e => pdictAssign acc (pyLower e.1) e.2) []))
  | _ => .error ("AttributeError: object has no attribute items")

/-- Step 4 of prepare_app for one key. -/
def lowerKeysStep (app : PDict) (k : String) : Except String PDict :=
  match pdictLookup app k with
  | some v => (pyLowerDict v).map (fun v2 => pdictAssign app k v2)
  | none => .error ("KeyError")

/-- The shape-normalisation half of prepare_app (lines 175-200):
list coercion of url, html, script and implies; defaulting of headers
and meta; generator wrapping of a bare meta scalar; lower-casing of
headers and meta keys. -/
def shapeNormalizeApp (app : PDict) : Except String PDict := do
  let app := listifyKey app ("url")
  let app := listifyKey app ("html")
  let app := listifyKey app ("script")
  let app := listifyKey app ("implies")
  let app := defaultDictKey app ("headers")
  let app := defaultDictKey app ("meta")
  let app := wrapMetaGenerator app
  let app ← lowerKeysStep app ("headers")
  lowerKeysStep app ("meta")

/-- Pattern compilation over a list value (step 5 of prepare_app for
one of url, html, script). -/
def compileListValues : PVal → Except String PVal
  | .plist items => (items.mapM preparePattern).map .plist
  | _ => .error ("TypeError: value is not a list")

/-- Pattern compilation over a dict value (step 6 of prepare_app for
headers or meta): each value replaced by its compiled pattern, keys
and order untouched. -/
def compileDictValues : PVal → Except String PVal
  | .pdict entries =>
      (entries.mapM (fun e => (preparePattern e.2).map (fun p => (e.1, p)))).map .pdict
  | _ => .error ("AttributeError: object has no attribute items")

/-- Compile the patterns stored under one list-valued key. -/
def compileAtList (app : PDict) (k : String) : Except String PDict :=
  match pdictLookup app k with
  | some v => (compileListValues v).map (fun v2 => pdictAssign app k v2)
  | none => .error ("KeyError")

/-- Compile the patterns stored under one dict-valued key. -/
def compileAtDict (app : PDict) (k : String) : Except String PDict :=
  match pdictLookup app k with
  | some v => (compileDictValues v).map (fun v2 => pdictAssign app k v2)
  | none => .error ("KeyError")

/-- The pattern-compilation half of prepare_app (lines 202-209). -/
def compileApp (app : PDict) : Except String PDict := do
  let app ← compileAtList app ("url")
  let app ← compileAtList app ("html")
  let app ← compileAtList app ("script")
  let app ← compileAtDict app ("headers")
  compileAtDict app ("meta")

/-- Model of prepare_app (lines 170-209): shape normalisation followed
by pattern compilation, both mutating the app dict in order. -/
def prepareApp (app : PDict) : Except String PDict := do
  let s ← shapeNormalizeApp app
  compileApp s

/-! ### Firing conditions and the growth relation (used to state the
claims about has_app and analyze) -/

/-- Does a headers entry of an app fire on the page: the declared
header name is present and its compiled regex matches the value. -/
def headerFires (wp : WebPage) (np : String × Pattern) : Bool :=
  match hlookup wp.headers np.1 with
  | some content => np.2.regex.search content
  | none => false

/-- Does a meta entry of an app fire on the page. -/
def metaFires (wp : WebPage) (np : String × Pattern) : Bool :=
  match hlookup wp.meta np.1 with
  | some content => np.2.regex.search content
  | none => false

/-- Does a script pattern fire on some script url of the page. -/
def scriptFires (wp : WebPage) (p : Pattern) : Bool :=
  wp.scripts.any (fun s => p.regex.search s)

/-- Does an html pattern fire on the page body. -/
def htmlFires (wp : WebPage) (p : Pattern) : Bool :=
  p.regex.search wp.html

/-- No headers, script, meta or html pattern of the app fires on the
page: any pattern of the app that matches is a url pattern. -/
def urlOnlyMatches (a : App) (wp : WebPage) : Bool :=
  a.headers.all (fun np => !headerFires wp np)
    && a.script.all (fun p => !scriptFires wp p)
    && a.meta.all (fun np => !metaFires wp np)
    && a.html.all (fun p => !htmlFires wp p)

/-- At least one headers, script, meta or html pattern of the app
fires on the page. -/
def someNonUrlFires (a : App) (wp : WebPage) : Bool :=
  a.headers.any (headerFires wp)
    || a.script.any (scriptFires wp)
    || a.meta.any (metaFires wp)
    || a.html.any (htmlFires wp)

/-- Per-analysis results only grow or are overwritten, never reset:
every recorded version stays in the version list, every confidence
label keeps an entry, the detected flag and the presence of a
confidence total are monotone, and the static implies list is
untouched. -/
def AppGrows (a b : App) : Prop :=
  (∀ v ∈ versionsList a, v ∈ versionsList b)
    ∧ (∀ l c, (l, c) ∈ a.confidence → ∃ c2, (l, c2) ∈ b.confidence)
    ∧ (a.detected = true → b.detected = true)
    ∧ (a.confidenceTotal.isSome → b.confidenceTotal.isSome)
    ∧ a.implies = b.implies

/-! ### Concrete instances used by the witnesses and counterexamples -/

/-- A blank prepared app entry: no signature patterns, no per-analysis
results yet. -/
def blankApp : App where
  cats := []
  url := []
  headers := []
  script := []
  meta := []
  html := []
  implies := []
  detected := false
  confidence := []
  confidenceTotal := none
  versions := none

/-- An always-matching pattern with expression x and no attributes. -/
def patAlways : Pattern where
  string := "x"
  regex := cregexAlways
  confidence := none
  version := none

/-- A trivial web page. -/
def wpEx : WebPage where
  url := "http://x"
  html := "<html></html>"
  scripts := ["a.js", "ab.js"]
  headers := []
  meta := []

/-- Store with a cyclic implication graph: A is detected via html and
implies B, B implies A. -/
def wCyc : Wapp where
  categories := []
  apps :=
    [(("A"), { blankApp with html := [patAlways], implies := [("B")] }),
     (("B"), { blankApp with implies := [("A")] })]

/-- Store for claim C2: A matches only via its url pattern, B is
detected via html and implies A. -/
def wUrlOnly : Wapp where
  categories := []
  apps :=
    [(("A"), { blankApp with url := [patAlways] }),
     (("B"), { blankApp with html := [patAlways], implies := [("A")] })]

/-- App for claim C3: one script pattern that fires on both script
urls of wpEx, producing the identical label twice. -/
def appTwice : App :=
  { blankApp with script := [patAlways] }

/-- The version-extraction pattern of claim C4: expression
v([0-9.]+), template backslash-one. -/
def patVersion : Pattern where
  string := "v([0-9.]+)"
  regex := cregexVDigits
  confidence := none
  version := some ("\\1")

/-- Store for claim C10: A is detected via html and implies Ghost,
which is not a key of the store. -/
def wGhost : Wapp where
  categories := []
  apps := [(("A"), { blankApp with html := [patAlways], implies := [("Ghost")] })]

/-- Store for claim C8: category table knows id 1 only; X references
ids 1 and 99, Y references id 1 only. -/
def wCats : Wapp where
  categories := [(("1"), [(("name"), ("CMS"))])]
  apps :=
    [(("X"), { blankApp with cats := [1, 99] }),
     (("Y"), { blankApp with cats := [1] })]

/-- Store for claim C9: the single app A carries results accumulated
by an earlier analysis of another page (a version, a confidence label,
a confidence total, the detected flag). -/
def wPrev : Wapp where
  categories := []
  apps :=
    [(("A"),
      { blankApp with
        detected := true
        confidence := [(("html x"), 100)]
        confidenceTotal := some 100
        versions := some [("1.0")] })]

/-- Raw technology entry for claim C7: a single bare url pattern. -/
def rawEntry : PDict := [(("url"), .pstr ("foo"))]

/-- The entry after one application of prepare_app. -/
def preparedEntry : PDict :=
  [(("url"), .plist [.pdict [(("string"), .pstr ("foo")), (("regex"), .pregex ("foo"))]]),
   (("html"), .plist []),
   (("script"), .plist []),
   (("implies"), .plist []),
   (("headers"), .pdict []),
   (("meta"), .pdict [])]

/-! ## Lemmas about the string primitives -/

theorem asString_toList (s : String) : s.toList.asString = s := rfl

theorem toList_ne_nil (s : String) (h : s ≠ "") : s.toList ≠ [] :=
  fun hnil => h (String.ext hnil)

theorem lstartsWith_append (t r : List Char) : lstartsWith t (t ++ r) = true := by
  induction t with
  | nil => rfl
  | cons c cs ih => simpa [lstartsWith] using ih

theorem replaceGo_nil_of_le (old new : List Char) :
    ∀ (s : List Char) (k : Nat), s.length ≤ k → replaceGo old new s k = [] := by
  intro s
  induction s with
  | nil => intro k _; cases k <;> rfl
  | cons c rest ih =>
      intro k hk
      cases k with
      | zero => simp at hk
      | succ k2 => exact ih k2 (by simpa using hk)

theorem pyReplace_self (s x : String) (h : s ≠ "") : pyReplace s s x = x := by
  obtain ⟨c, rest, hcr⟩ := List.exists_cons_of_ne_nil (toList_ne_nil s h)
  have hstart : lstartsWith (c :: rest) (c :: rest) = true := by
    simpa using lstartsWith_append (c :: rest) []
  have hlen : (c :: rest).length - 1 = rest.length := by simp
  simp only [pyReplace, hcr, replaceGo, hstart, if_true, hlen,
    replaceGo_nil_of_le (c :: rest) x.toList rest rest.length (le_refl _), List.append_nil]
  exact asString_toList x

/-! ## Lemmas about the ternary search -/

theorem takeWhile_colon_append (A B : List Char) (h : ∀ c ∈ A, c ≠ ':') :
    (A ++ ':' :: B).takeWhile (fun c => c ≠ ':') = A := by
  induction A with
  | nil => simp
  | cons c cs ih =>
      have hc : c ≠ ':' := h c (by simp)
      have ih2 := ih (fun d hd => h d (by simp [hd]))
      simp only [List.cons_append]
      rw [List.takeWhile_cons_of_pos (by simp [hc]), ih2]

theorem drop_colon_append (A B : List Char) : (A ++ ':' :: B).drop (A.length + 1) = B := by
  have h2 : A ++ ':' :: B = (A ++ [':']) ++ B := by simp
  have h3 := List.drop_left (A ++ [':']) B
  rw [h2]
  simp at h3
  simp [h3]

theorem ternaryAt_full (tag A B : List Char) (hA : A ≠ []) (hcol : ∀ c ∈ A, c ≠ ':') :
    ternaryAt tag (tag ++ (A ++ ':' :: B)) = some (tag ++ (A ++ ':' :: B), A, B) := by
  have hlen : (A ++ ':' :: B).length = A.length + B.length + 1 := by
    simp
    omega
  simp only [ternaryAt, lstartsWith_append, if_true, List.drop_left,
    takeWhile_colon_append A B hcol, drop_colon_append]
  have h1 : A.isEmpty = false := by
    cases A with
    | nil => exact absurd rfl hA
    | cons x xs => rfl
  have h2 : ¬(A.length = (A ++ ':' :: B).length) := by
    rw [hlen]
    omega
  simp [h1, h2]

theorem ternaryScan_of_at (tag s : List Char) (r : List Char × List Char × List Char)
    (h : ternaryAt tag s = some r) : ternaryScan tag s = some r := by
  cases s with
  | nil => simpa [ternaryScan] using h
  | cons c rest => simp [ternaryScan, h]

theorem ternaryStep_full (i : Nat) (A B m : String) (hA : A ≠ "")
    (hcol : ∀ c ∈ A.toList, c ≠ ':') :
    ternaryStep i m ("\\" ++ toString i ++ "?" ++ A ++ ":" ++ B) = if m = "" then B else A := by
  have htag : ("\\" ++ toString i ++ "?").toList = '\\' :: ((toString i).toList ++ ['?']) := rfl
  have h1 : ("\\" ++ toString i ++ "?" ++ A ++ ":" ++ B).toList
      = ((("\\" ++ toString i ++ "?").toList ++ A.toList) ++ [':']) ++ B.toList := rfl
  have hV : ("\\" ++ toString i ++ "?" ++ A ++ ":" ++ B).toList
      = ("\\" ++ toString i ++ "?").toList ++ (A.toList ++ ':' :: B.toList) := by
    rw [h1]
    simp [List.append_assoc]
  have hAt := ternaryAt_full (("\\" ++ toString i ++ "?").toList) A.toList B.toList
    (toList_ne_nil A hA) hcol
  have hScan := ternaryScan_of_at (("\\" ++ toString i ++ "?").toList)
    (("\\" ++ toString i ++ "?").toList ++ (A.toList ++ ':' :: B.toList)) _ hAt
  have hSearch : ternarySearch i ("\\" ++ toString i ++ "?" ++ A ++ ":" ++ B) =
      some (("\\" ++ toString i ++ "?" ++ A ++ ":" ++ B), A, B) := by
    unfold ternarySearch
    rw [hV, hScan, ← hV]
    rfl
  have hVne : ("\\" ++ toString i ++ "?" ++ A ++ ":" ++ B) ≠ "" := by
    intro hv
    have h2 := congrArg String.toList hv
    rw [hV, htag] at h2
    simp at h2
  unfold ternaryStep
  rw [hSearch]
  change pyReplace ("\\" ++ toString i ++ "?" ++ A ++ ":" ++ B)
    ("\\" ++ toString i ++ "?" ++ A ++ ":" ++ B) (if m ≠ "" then A else B) = _
  rw [pyReplace_self _ _ hVne]
  by_cases hm : m = "" <;> simp [hm]

/-! ## Lemmas about the version list -/

theorem insertVersion_perm (v : String) (l : List String) :
    (insertVersion v l).Perm (v :: l) := by
  induction l with
  | nil => exact List.Perm.refl _
  | cons x xs ih =>
      by_cases hx : x.length < v.length
      · rw [insertVersion, if_pos hx]
        exact (List.Perm.cons x ih).trans (List.Perm.swap v x xs)
      · rw [insertVersion, if_neg hx]

theorem mem_insertVersion (a v : String) (l : List String) :
    a ∈ insertVersion v l ↔ a = v ∨ a ∈ l := by
  rw [(insertVersion_perm v l).mem_iff]
  simp

theorem sortAppVersions_perm (l : List String) : (sortAppVersions l).Perm l := by
  induction l with
  | nil => exact List.Perm.refl _
  | cons x xs ih => exact (insertVersion_perm x (sortAppVersions xs)).trans (List.Perm.cons x ih)

theorem mem_sortAppVersions (a : String) (l : List String) :
    a ∈ sortAppVersions l ↔ a ∈ l :=
  (sortAppVersions_perm l).mem_iff

theorem insertVersion_sorted (v : String) (l : List String)
    (h : l.Pairwise (fun a b => a.length ≤ b.length)) :
    (insertVersion v l).Pairwise (fun a b => a.length ≤ b.length) := by
  induction l with
  | nil => simp [insertVersion]
  | cons x xs ih =>
      rcases List.pairwise_cons.mp h with ⟨hx, hxs⟩
      by_cases hlt : x.length < v.length
      · rw [insertVersion, if_pos hlt]
        refine List.pairwise_cons.mpr ⟨?_, ih hxs⟩
        intro y hy
        rcases (mem_insertVersion y v xs).mp hy with hyv | hyx
        · rw [hyv]; omega
        · exact hx y hyx
      · rw [insertVersion, if_neg hlt]
        refine List.pairwise_cons.mpr ⟨?_, h⟩
        intro y hy
        rcases List.mem_cons.mp hy with hyx | hyxs
        · rw [hyx]; omega
        · have := hx y hyxs; omega

theorem sortAppVersions_sorted (l : List String) :
    (sortAppVersions l).Pairwise (fun a b => a.length ≤ b.length) := by
  induction l with
  | nil => simp [sortAppVersions]
  | cons x xs ih => exact insertVersion_sorted x _ ih

theorem mem_addVersion_self (vs : Option (List String)) (v : String) (h : v ≠ "") :
    v ∈ optVersions (addVersion vs v) := by
  unfold addVersion
  rw [if_neg h]
  cases vs with
  | none => simp [optVersions]
  | some l => by_cases hv : v ∈ l <;> simp [hv, optVersions]

theorem mem_addVersion_mono (vs : Option (List String)) (v x : String)
    (hx : x ∈ optVersions vs) : x ∈ optVersions (addVersion vs v) := by
  unfold addVersion
  by_cases hv : v = ""
  · rw [if_pos hv]; exact hx
  · rw [if_neg hv]
    cases vs with
    | none => simp [optVersions] at hx
    | some l =>
        by_cases hmem : v ∈ l
        · simpa [hmem, optVersions] using hx
        · simp only [hmem, if_neg, optVersions] at hx ⊢
          simp at hx
          simp [hx]

theorem foldl_addVersion_mono (f : FindallItem → String) (items : List FindallItem)
    (vs : Option (List String)) (x : String) (hx : x ∈ optVersions vs) :
    x ∈ optVersions (items.foldl (fun a it => addVersion a (f it)) vs) := by
  induction items generalizing vs with
  | nil => exact hx
  | cons it rest ih => exact ih (addVersion vs (f it)) (mem_addVersion_mono vs (f it) x hx)

theorem foldl_addVersion_mem (f : FindallItem → String) (items : List FindallItem)
    (vs : Option (List String)) (it : FindallItem) (hit : it ∈ items) (hne : f it ≠ "") :
    f it ∈ optVersions (items.foldl (fun a it2 => addVersion a (f it2)) vs) := by
  induction items generalizing vs with
  | nil => simp at hit
  | cons hd rest ih =>
      rcases List.mem_cons.mp hit with heq | hrest
      · subst heq
        simp only [List.foldl_cons]
        exact foldl_addVersion_mono f rest _ (f it) (mem_addVersion_self vs (f it) hne)
      · simp only [List.foldl_cons]
        exact ih _ hrest

theorem mem_setAppVersion (b : App) (x : String) (hx : x ∈ versionsList b) :
    x ∈ versionsList (setAppVersion b) := by
  cases hb : b.versions with
  | none => rw [setAppVersion, hb]; exact hx
  | some l =>
      rw [setAppVersion, hb]
      rw [versionsList, hb] at hx
      simp only [versionsList, optVersions]
      exact (mem_sortAppVersions x l).mpr hx

/-! ## Structural lemmas about set_detected_app -/

theorem setAppVersion_confidence (b : App) : (setAppVersion b).confidence = b.confidence := by
  cases hb : b.versions <;> simp [setAppVersion, hb]

theorem setAppVersion_detected (b : App) : (setAppVersion b).detected = b.detected := by
  cases hb : b.versions <;> simp [setAppVersion, hb]

theorem setAppVersion_confidenceTotal (b : App) :
    (setAppVersion b).confidenceTotal = b.confidenceTotal := by
  cases hb : b.versions <;> simp [setAppVersion, hb]

theorem setAppVersion_implies (b : App) : (setAppVersion b).implies = b.implies := by
  cases hb : b.versions <;> simp [setAppVersion, hb]

theorem setDetectedApp_confidence (a : App) (t : String) (p : Pattern) (v k : String) :
    (setDetectedApp a t p v k).confidence
      = dictInsert a.confidence (t ++ " " ++ (if k ≠ "" then k ++ " " else k) ++ p.string)
          (patternWeight p) := by
  unfold setDetectedApp
  cases hv : p.version
  · rfl
  · rw [setAppVersion_confidence]

theorem setDetectedApp_detected (a : App) (t : String) (p : Pattern) (v k : String) :
    (setDetectedApp a t p v k).detected = true := by
  unfold setDetectedApp
  cases hv : p.version
  · rfl
  · rw [setAppVersion_detected]

theorem setDetectedApp_confidenceTotal (a : App) (t : String) (p : Pattern) (v k : String) :
    (setDetectedApp a t p v k).confidenceTotal = a.confidenceTotal := by
  unfold setDetectedApp
  cases hv : p.version
  · rfl
  · rw [setAppVersion_confidenceTotal]

theorem setDetectedApp_implies (a : App) (t : String) (p : Pattern) (v k : String) :
    (setDetectedApp a t p v k).implies = a.implies := by
  unfold setDetectedApp
  cases hv : p.version
  · rfl
  · rw [setAppVersion_implies]

theorem setDetectedApp_versions_mono (a : App) (t : String) (p : Pattern) (v k x : String)
    (hx : x ∈ versionsList a) : x ∈ versionsList (setDetectedApp a t p v k) := by
  unfold setDetectedApp
  cases hv : p.version
  · exact hx
  · exact mem_setAppVersion _ x
      (foldl_addVersion_mono (fun ms => resolveOccurrence _ (itemGroups ms)) _ a.versions x hx)

theorem setDetectedApp_version_of_fire (a : App) (t : String) (p : Pattern) (v k : String)
    (template : String) (hp : p.version = some template) (it : FindallItem)
    (hit : it ∈ p.regex.findall v)
    (hne : resolveOccurrence template (itemGroups it) ≠ "") :
    resolveOccurrence template (itemGroups it) ∈ versionsList (setDetectedApp a t p v k) := by
  unfold setDetectedApp
  rw [hp]
  exact mem_setAppVersion _ _
    (foldl_addVersion_mem (fun ms => resolveOccurrence template (itemGroups ms))
      (p.regex.findall v) a.versions it hit hne)

theorem setAppVersion_versions_sorted (b : App) (l : List String)
    (hl : (setAppVersion b).versions = some l) :
    l.Pairwise (fun x y => x.length ≤ y.length) := by
  cases hv : b.versions with
  | none => unfold setAppVersion at hl; simp [hv] at hl
  | some l0 =>
      unfold setAppVersion at hl
      simp only [hv] at hl
      simp at hl
      rw [← hl]
      exact sortAppVersions_sorted l0

theorem setDetectedApp_versions_sorted (a : App) (t : String) (p : Pattern) (v k : String)
    (template : String) (hp : p.version = some template) (l : List String)
    (hl : (setDetectedApp a t p v k).versions = some l) :
    l.Pairwise (fun x y => x.length ≤ y.length) := by
  unfold setDetectedApp at hl
  rw [hp] at hl
  exact setAppVersion_versions_sorted _ l hl

/-! ## Claims C4, C5, C6 -/

/-- Claim C4 (corrected): at the concrete input of the spec example,
the matched value script-v2.3.1.js with expression v([0-9.]+) and
template backslash-1 yields the version list [2.3.1.] and not a list
containing 2.3.1: the greedy character class [0-9.]+ also captures the
dot before the js extension, so the claimed exact version 2.3.1 is
never produced. -/
theorem c4_counterexample :
    versionsList (setDetectedApp blankApp ("script") patVersion ("script-v2.3.1.js") (""))
        = [("2.3.1.")]
    ∧ ("2.3.1") ∉
        versionsList (setDetectedApp blankApp ("script") patVersion ("script-v2.3.1.js") ("")) :=
  ⟨rfl, by decide⟩

/-- Claim C4 (amended): version resolution processes all findall
occurrences of the matched value, a single bare capture string is
treated as a one-group tuple, and for the matched value
script-v2.3.1.js with expression v([0-9.]+) and template backslash-1
the version list is exactly [2.3.1.] (the greedy class also captures
the dot before the extension). -/
theorem c4_all_occurrences :
    (∀ s : String, itemGroups (FindallItem.str s) = [s])
    ∧ (∀ (a : App) (t : String) (p : Pattern) (v k template : String),
        p.version = some template →
        ∀ it ∈ p.regex.findall v,
          resolveOccurrence template (itemGroups it) ≠ "" →
          resolveOccurrence template (itemGroups it) ∈ versionsList (setDetectedApp a t p v k))
    ∧ versionsList (setDetectedApp blankApp ("script") patVersion ("script-v2.3.1.js") (""))
        = [("2.3.1.")] := by
  refine ⟨fun s => rfl, ?_, rfl⟩
  intro a t p v k template hp it hit hne
  exact setDetectedApp_version_of_fire a t p v k template hp it hit hne

/-- Witness for claim C4: the amended theorem applied at the concrete
spec example. -/
theorem c4_witness :
    ("2.3.1.") ∈
      versionsList (setDetectedApp blankApp ("script") patVersion ("script-v2.3.1.js") ("")) := by
  have h := c4_all_occurrences.2.1 blankApp ("script") patVersion ("script-v2.3.1.js") ("")
    ("\\1") rfl (FindallItem.str ("2.3.1.")) (by decide) (by decide)
  exact h

/-- Claim C5 (confirmed): ternary substitution in a version template:
for group index i, a template of the shape
backslash-i questionmark thenpart colon elsepart is resolved to the
then part when the capture text is non-empty and to the else part
otherwise; in particular backslash-1 questionmark Pro colon Free
resolves to Pro for the capture x and to Free for the empty capture. -/
theorem c5_ternary (i : Nat) (A B m : String) (hA : A ≠ "")
    (hcol : ∀ c ∈ A.toList, c ≠ ':') :
    ternaryStep i m ("\\" ++ toString i ++ "?" ++ A ++ ":" ++ B) = (if m = "" then B else A)
    ∧ resolveOccurrence ("\\1?Pro:Free") [("x")] = ("Pro")
    ∧ resolveOccurrence ("\\1?Pro:Free") [("")] = ("Free") :=
  ⟨ternaryStep_full i A B m hA hcol, rfl, rfl⟩

/-- Witness for claim C5: the theorem applied at group index 1 with
then part Pro, else part Free, and the captures x and empty. -/
theorem c5_witness :
    ternaryStep 1 ("x") ("\\1?Pro:Free") = ("Pro")
    ∧ ternaryStep 1 ("") ("\\1?Pro:Free") = ("Free") := by
  have h1 := (c5_ternary 1 ("Pro") ("Free") ("x") (by decide) (by decide)).1
  have h2 := (c5_ternary 1 ("Pro") ("Free") ("") (by decide) (by decide)).1
  rw [if_neg (by decide : ¬("x" : String) = "")] at h1
  rw [if_pos rfl] at h2
  exact ⟨h1, h2⟩

/-- Claim C6 (confirmed): after version resolution the version list
is ordered by ascending string length, and the concrete pair 1.2 and
1.2.3 is ordered with 1.2 first. -/
theorem c6_version_order (a : App) (t : String) (p : Pattern) (v k template : String)
    (hp : p.version = some template) (l : List String)
    (hl : (setDetectedApp a t p v k).versions = some l) :
    l.Pairwise (fun x y => x.length ≤ y.length)
    ∧ sortAppVersions [("1.2.3"), ("1.2")] = [("1.2"), ("1.2.3")] :=
  ⟨setDetectedApp_versions_sorted a t p v k template hp l hl, rfl⟩

/-- Witness for claim C6: the theorem applied to the concrete version
extraction of the C4 example. -/
theorem c6_witness :
    ([("2.3.1.")] : List String).Pairwise (fun x y => x.length ≤ y.length)
    ∧ sortAppVersions [("1.2.3"), ("1.2")] = [("1.2"), ("1.2.3")] :=
  c6_version_order blankApp ("script") patVersion ("script-v2.3.1.js") ("") ("\\1") rfl
    [("2.3.1.")] rfl

/-! ## The growth relation through the match engine -/

theorem appGrows_refl (a : App) : AppGrows a a :=
  ⟨fun _ hv => hv, fun _ c h => ⟨c, h⟩, id, id, Eq.refl a.implies⟩

theorem AppGrows.trans {a b c : App} (h1 : AppGrows a b) (h2 : AppGrows b c) :
    AppGrows a c := by
  obtain ⟨v1, c1, d1, t1, i1⟩ := h1
  obtain ⟨v2, c2, d2, t2, i2⟩ := h2
  refine ⟨fun v hv => v2 v (v1 v hv), ?_, fun h => d2 (d1 h), fun h => t2 (t1 h), i1.trans i2⟩
  intro l c0 h
  obtain ⟨cb, hb⟩ := c1 l c0 h
  exact c2 l cb hb

theorem dictInsert_mem (d : List (String × Int)) (k : String) (v : Int) (l : String) (c : Int)
    (h : (l, c) ∈ d) : ∃ c2, (l, c2) ∈ dictInsert d k v := by
  unfold dictInsert
  by_cases hk : d.any (fun e => e.1 = k)
  · rw [if_pos hk]
    by_cases hlk : l = k
    · exact ⟨v, List.mem_map.mpr ⟨(l, c), h, by simp [hlk]⟩⟩
    · exact ⟨c, List.mem_map.mpr ⟨(l, c), h, by simp [hlk]⟩⟩
  · rw [if_neg hk]
    exact ⟨c, List.mem_append_left _ h⟩

theorem grows_setDetectedApp (a : App) (t : String) (p : Pattern) (v k : String) :
    AppGrows a (setDetectedApp a t p v k) := by
  refine ⟨fun x hx => setDetectedApp_versions_mono a t p v k x hx, ?_, ?_, ?_, ?_⟩
  · intro l c h
    rw [setDetectedApp_confidence]
    exact dictInsert_mem a.confidence _ _ l c h
  · intro _
    exact setDetectedApp_detected a t p v k
  · intro h
    rw [setDetectedApp_confidenceTotal]
    exact h
  · exact (setDetectedApp_implies a t p v k).symm

theorem foldl_grows {σ β : Type} (proj : σ → App) (step : σ → β → σ) (l : List β) (s : σ)
    (h : ∀ s2 x, AppGrows (proj s2) (proj (step s2 x))) :
    AppGrows (proj s) (proj (l.foldl step s)) := by
  induction l generalizing s with
  | nil => exact appGrows_refl _
  | cons x xs ih => exact (h s x).trans (ih (step s x))

theorem grows_urlFold (wp : WebPage) (pats : List Pattern) (a : App) :
    AppGrows a (urlFold wp pats a) := by
  unfold urlFold
  refine foldl_grows id _ pats a ?_
  intro s2 x
  by_cases h : x.regex.search wp.url = true
  · rw [if_pos h]
    exact grows_setDetectedApp s2 ("url") x wp.url ("")
  · rw [if_neg h]
    exact appGrows_refl _

theorem grows_headersFold (wp : WebPage) (pats : List (String × Pattern)) (s : App × Bool) :
    AppGrows s.1 (headersFold wp pats s).1 := by
  unfold headersFold
  refine foldl_grows Prod.fst _ pats s ?_
  intro s2 x
  cases hl : hlookup wp.headers x.1 with
  | none => simp only [hl]; exact appGrows_refl _
  | some content =>
      simp only [hl]
      by_cases hs : x.2.regex.search content = true
      · rw [if_pos hs]
        exact grows_setDetectedApp s2.1 ("headers") x.2 content x.1
      · rw [if_neg hs]
        exact appGrows_refl _

theorem grows_scriptFold (wp : WebPage) (pats : List Pattern) (s : App × Bool) :
    AppGrows s.1 (scriptFold wp pats s).1 := by
  unfold scriptFold
  refine foldl_grows Prod.fst _ pats s ?_
  intro s2 x
  refine foldl_grows Prod.fst _ wp.scripts s2 ?_
  intro s3 scr
  by_cases hs : x.regex.search scr = true
  · rw [if_pos hs]
    exact grows_setDetectedApp s3.1 ("script") x scr ("")
  · rw [if_neg hs]
    exact appGrows_refl _

theorem grows_metaFold (wp : WebPage) (pats : List (String × Pattern)) (s : App × Bool) :
    AppGrows s.1 (metaFold wp pats s).1 := by
  unfold metaFold
  refine foldl_grows Prod.fst _ pats s ?_
  intro s2 x
  cases hl : hlookup wp.meta x.1 with
  | none => simp only [hl]; exact appGrows_refl _
  | some content =>
      simp only [hl]
      by_cases hs : x.2.regex.search content = true
      · rw [if_pos hs]
        exact grows_setDetectedApp s2.1 ("meta") x.2 content x.1
      · rw [if_neg hs]
        exact appGrows_refl _

theorem grows_htmlFold (wp : WebPage) (pats : List Pattern) (s : App × Bool) :
    AppGrows s.1 (htmlFold wp pats s).1 := by
  unfold htmlFold
  refine foldl_grows Prod.fst _ pats s ?_
  intro s2 x
  by_cases hs : x.regex.search wp.html = true
  · rw [if_pos hs]
    exact grows_setDetectedApp s2.1 ("html") x wp.html ("")
  · rw [if_neg hs]
    exact appGrows_refl _

theorem grows_setTotal (b : App) (t : Int) :
    AppGrows b { b with confidenceTotal := some t } := by
  refine ⟨fun v hv => hv, fun _ c h => ⟨c, h⟩, id, fun _ => ?_, rfl⟩
  simp

theorem grows_hasApp (a : App) (wp : WebPage) : AppGrows a (hasApp a wp).1 := by
  unfold hasApp
  dsimp only
  have g0 : AppGrows a (urlFold wp a.url a) := grows_urlFold wp a.url a
  have g1 := g0.trans (grows_headersFold wp a.headers (urlFold wp a.url a, false))
  have g2 := g1.trans
    (grows_scriptFold wp a.script (headersFold wp a.headers (urlFold wp a.url a, false)))
  have g3 := g2.trans (grows_metaFold wp a.meta
    (scriptFold wp a.script (headersFold wp a.headers (urlFold wp a.url a, false))))
  have g4 := g3.trans (grows_htmlFold wp a.html
    (metaFold wp a.meta
      (scriptFold wp a.script (headersFold wp a.headers (urlFold wp a.url a, false)))))
  split
  · exact g4.trans (grows_setTotal _ _)
  · exact g4

/-! ## Flag behaviour of the facet loops -/

theorem foldl_pred {σ β : Type} (P : σ → Prop) (step : σ → β → σ) (l : List β) (s : σ)
    (h : ∀ s2 x, P s2 → P (step s2 x)) (hs : P s) : P (l.foldl step s) := by
  induction l generalizing s with
  | nil => exact hs
  | cons x xs ih => exact ih (step s x) (h s x hs)

theorem headersFold_flag_mono (wp : WebPage) (pats : List (String × Pattern)) (s : App × Bool)
    (hs : s.2 = true) : (headersFold wp pats s).2 = true := by
  unfold headersFold
  refine foldl_pred (fun s2 => s2.2 = true) _ pats s ?_ hs
  intro s2 x h2
  cases hl : hlookup wp.headers x.1 with
  | none => simpa [hl] using h2
  | some content =>
      simp only [hl]
      by_cases hsr : x.2.regex.search content = true
      · rw [if_pos hsr]
      · rw [if_neg hsr]; exact h2

theorem scriptFold_flag_mono (wp : WebPage) (pats : List Pattern) (s : App × Bool)
    (hs : s.2 = true) : (scriptFold wp pats s).2 = true := by
  unfold scriptFold
  refine foldl_pred (fun s2 => s2.2 = true) _ pats s ?_ hs
  intro s2 x h2
  refine foldl_pred (fun s3 => s3.2 = true) _ wp.scripts s2 ?_ h2
  intro s3 scr h3
  by_cases hsr : x.regex.search scr = true
  · rw [if_pos hsr]
  · rw [if_neg hsr]; exact h3

theorem metaFold_flag_mono (wp : WebPage) (pats : List (String × Pattern)) (s : App × Bool)
    (hs : s.2 = true) : (metaFold wp pats s).2 = true := by
  unfold metaFold
  refine foldl_pred (fun s2 => s2.2 = true) _ pats s ?_ hs
  intro s2 x h2
  cases hl : hlookup wp.meta x.1 with
  | none => simpa [hl] using h2
  | some content =>
      simp only [hl]
      by_cases hsr : x.2.regex.search content = true
      · rw [if_pos hsr]
      · rw [if_neg hsr]; exact h2

theorem htmlFold_flag_mono (wp : WebPage) (pats : List Pattern) (s : App × Bool)
    (hs : s.2 = true) : (htmlFold wp pats s).2 = true := by
  unfold htmlFold
  refine foldl_pred (fun s2 => s2.2 = true) _ pats s ?_ hs
  intro s2 x h2
  by_cases hsr : x.regex.search wp.html = true
  · rw [if_pos hsr]
  · rw [if_neg hsr]; exact h2

theorem headersFold_id (wp : WebPage) (pats : List (String × Pattern)) (s : App × Bool)
    (h : ∀ np ∈ pats, headerFires wp np = false) : headersFold wp pats s = s := by
  induction pats generalizing s with
  | nil => rfl
  | cons np rest ih =>
      have hnp := h np (List.mem_cons_self np rest)
      unfold headersFold
      simp only [List.foldl_cons]
      have hstep :
          (match hlookup wp.headers np.1 with
            | some content =>
                if np.2.regex.search content then
                  (setDetectedApp s.1 ("headers") np.2 content np.1, true)
                else s
            | none => s) = s := by
        unfold headerFires at hnp
        cases hl : hlookup wp.headers np.1 with
        | none => simp [hl]
        | some content =>
            rw [hl] at hnp
            simp at hnp
            simp [hl, hnp]
      rw [hstep]
      exact ih s (fun np2 h2 => h np2 (List.mem_cons_of_mem np h2))

theorem scriptFoldInner_id (_wp : WebPage) (p : Pattern) (scripts : List String) (s : App × Bool)
    (h : ∀ scr ∈ scripts, p.regex.search scr = false) :
    scripts.foldl
      (fun st2 script =>
        if p.regex.search script then (setDetectedApp st2.1 ("script") p script (""), true)
        else st2) s = s := by
  induction scripts generalizing s with
  | nil => rfl
  | cons scr rest ih =>
      have hscr := h scr (List.mem_cons_self scr rest)
      simp only [List.foldl_cons, hscr]
      simp only [Bool.false_eq_true, if_false]
      exact ih s (fun scr2 h2 => h scr2 (List.mem_cons_of_mem scr h2))

theorem scriptFold_id (wp : WebPage) (pats : List Pattern) (s : App × Bool)
    (h : ∀ p ∈ pats, scriptFires wp p = false) : scriptFold wp pats s = s := by
  induction pats generalizing s with
  | nil => rfl
  | cons p rest ih =>
      have hp := h p (List.mem_cons_self p rest)
      unfold scriptFires at hp
      rw [List.any_eq_false] at hp
      unfold scriptFold
      simp only [List.foldl_cons]
      rw [scriptFoldInner_id wp p wp.scripts s
        (fun scr hscr => Bool.eq_false_iff.mpr (hp scr hscr))]
      exact ih s (fun p2 h2 => h p2 (List.mem_cons_of_mem p h2))

theorem metaFold_id (wp : WebPage) (pats : List (String × Pattern)) (s : App × Bool)
    (h : ∀ np ∈ pats, metaFires wp np = false) : metaFold wp pats s = s := by
  induction pats generalizing s with
  | nil => rfl
  | cons np rest ih =>
      have hnp := h np (List.mem_cons_self np rest)
      unfold metaFold
      simp only [List.foldl_cons]
      have hstep :
          (match hlookup wp.meta np.1 with
            | some content =>
                if np.2.regex.search content then
                  (setDetectedApp s.1 ("meta") np.2 content np.1, true)
                else s
            | none => s) = s := by
        unfold metaFires at hnp
        cases hl : hlookup wp.meta np.1 with
        | none => simp [hl]
        | some content =>
            rw [hl] at hnp
            simp at hnp
            simp [hl, hnp]
      rw [hstep]
      exact ih s (fun np2 h2 => h np2 (List.mem_cons_of_mem np h2))

theorem htmlFold_id (wp : WebPage) (pats : List Pattern) (s : App × Bool)
    (h : ∀ p ∈ pats, htmlFires wp p = false) : htmlFold wp pats s = s := by
  induction pats generalizing s with
  | nil => rfl
  | cons p rest ih =>
      have hp := h p (List.mem_cons_self p rest)
      unfold htmlFires at hp
      unfold htmlFold
      simp only [List.foldl_cons, hp]
      simp only [Bool.false_eq_true, if_false]
      exact ih s (fun p2 h2 => h p2 (List.mem_cons_of_mem p h2))

theorem headersFold_flag_of_fire (wp : WebPage) (pats : List (String × Pattern)) (s : App × Bool)
    (h : ∃ np ∈ pats, headerFires wp np = true) : (headersFold wp pats s).2 = true := by
  induction pats generalizing s with
  | nil => simp at h
  | cons np rest ih =>
      obtain ⟨np2, hmem, hfire⟩ := h
      rcases List.mem_cons.mp hmem with heq | hrest
      · subst heq
        unfold headerFires at hfire
        cases hl : hlookup wp.headers np2.1 with
        | none => rw [hl] at hfire; simp at hfire
        | some content =>
            rw [hl] at hfire
            simp at hfire
            unfold headersFold
            simp only [List.foldl_cons, hl, hfire, if_true]
            exact headersFold_flag_mono wp rest _ rfl
      · unfold headersFold
        simp only [List.foldl_cons]
        exact ih _ ⟨np2, hrest, hfire⟩

theorem scriptFoldInner_flag_of_fire (p : Pattern) (scripts : List String) (s : App × Bool)
    (h : ∃ scr ∈ scripts, p.regex.search scr = true) :
    (scripts.foldl
      (fun st2 script =>
        if p.regex.search script then (setDetectedApp st2.1 ("script") p script (""), true)
        else st2) s).2 = true := by
  induction scripts generalizing s with
  | nil => simp at h
  | cons scr rest ih =>
      obtain ⟨scr2, hmem, hfire⟩ := h
      rcases List.mem_cons.mp hmem with heq | hrest
      · subst heq
        simp only [List.foldl_cons, hfire, if_true]
        refine foldl_pred (fun s3 : App × Bool => s3.2 = true) _ rest _ ?_ rfl
        intro s3 scr3 h3
        by_cases hs3 : p.regex.search scr3 = true
        · rw [if_pos hs3]
        · rw [if_neg hs3]; exact h3
      · simp only [List.foldl_cons]
        exact ih _ ⟨scr2, hrest, hfire⟩

theorem scriptFold_flag_of_fire (wp : WebPage) (pats : List Pattern) (s : App × Bool)
    (h : ∃ p ∈ pats, scriptFires wp p = true) : (scriptFold wp pats s).2 = true := by
  induction pats generalizing s with
  | nil => simp at h
  | cons p rest ih =>
      obtain ⟨p2, hmem, hfire⟩ := h
      rcases List.mem_cons.mp hmem with heq | hrest
      · subst heq
        unfold scriptFires at hfire
        rw [List.any_eq_true] at hfire
        obtain ⟨scr, hscr, hsearch⟩ := hfire
        unfold scriptFold
        simp only [List.foldl_cons]
        have hin := scriptFoldInner_flag_of_fire p2 wp.scripts s ⟨scr, hscr, by simpa using hsearch⟩
        exact scriptFold_flag_mono wp rest _ hin
      · unfold scriptFold
        simp only [List.foldl_cons]
        exact ih _ ⟨p2, hrest, hfire⟩

theorem metaFold_flag_of_fire (wp : WebPage) (pats : List (String × Pattern)) (s : App × Bool)
    (h : ∃ np ∈ pats, metaFires wp np = true) : (metaFold wp pats s).2 = true := by
  induction pats generalizing s with
  | nil => simp at h
  | cons np rest ih =>
      obtain ⟨np2, hmem, hfire⟩ := h
      rcases List.mem_cons.mp hmem with heq | hrest
      · subst heq
        unfold metaFires at hfire
        cases hl : hlookup wp.meta np2.1 with
        | none => rw [hl] at hfire; simp at hfire
        | some content =>
            rw [hl] at hfire
            simp at hfire
            unfold metaFold
            simp only [List.foldl_cons, hl, hfire, if_true]
            exact metaFold_flag_mono wp rest _ rfl
      · unfold metaFold
        simp only [List.foldl_cons]
        exact ih _ ⟨np2, hrest, hfire⟩

theorem htmlFold_flag_of_fire (wp : WebPage) (pats : List Pattern) (s : App × Bool)
    (h : ∃ p ∈ pats, htmlFires wp p = true) : (htmlFold wp pats s).2 = true := by
  induction pats generalizing s with
  | nil => simp at h
  | cons p rest ih =>
      obtain ⟨p2, hmem, hfire⟩ := h
      rcases List.mem_cons.mp hmem with heq | hrest
      · subst heq
        unfold htmlFires at hfire
        unfold htmlFold
        simp only [List.foldl_cons, hfire, if_true]
        exact htmlFold_flag_mono wp rest _ rfl
      · unfold htmlFold
        simp only [List.foldl_cons]
        exact ih _ ⟨p2, hrest, hfire⟩

/-! ## Lemmas about has_app -/

theorem hasApp_of_urlOnly (a : App) (wp : WebPage) (h : urlOnlyMatches a wp = true) :
    hasApp a wp = (urlFold wp a.url a, false) := by
  unfold urlOnlyMatches at h
  simp only [Bool.and_eq_true, List.all_eq_true, Bool.not_eq_true'] at h
  obtain ⟨⟨⟨hh, hs⟩, hm⟩, hl⟩ := h
  unfold hasApp
  dsimp only
  rw [headersFold_id wp a.headers _ hh, scriptFold_id wp a.script _ hs,
    metaFold_id wp a.meta _ hm, htmlFold_id wp a.html _ hl]
  simp

theorem hasApp_flag_of_fire (a : App) (wp : WebPage) (h : someNonUrlFires a wp = true) :
    (hasApp a wp).2 = true := by
  unfold someNonUrlFires at h
  simp only [Bool.or_eq_true, List.any_eq_true] at h
  unfold hasApp
  dsimp only
  have hs4 : (htmlFold wp a.html (metaFold wp a.meta (scriptFold wp a.script
      (headersFold wp a.headers (urlFold wp a.url a, false))))).2 = true := by
    rcases h with ((⟨np, hmem, hfire⟩ | ⟨p, hmem, hfire⟩) | ⟨np, hmem, hfire⟩) | ⟨p, hmem, hfire⟩
    · exact htmlFold_flag_mono _ _ _ (metaFold_flag_mono _ _ _ (scriptFold_flag_mono _ _ _
        (headersFold_flag_of_fire wp a.headers _ ⟨np, hmem, hfire⟩)))
    · exact htmlFold_flag_mono _ _ _ (metaFold_flag_mono _ _ _
        (scriptFold_flag_of_fire wp a.script _ ⟨p, hmem, hfire⟩))
    · exact htmlFold_flag_mono _ _ _ (metaFold_flag_of_fire wp a.meta _ ⟨np, hmem, hfire⟩)
    · exact htmlFold_flag_of_fire wp a.html _ ⟨p, hmem, hfire⟩
  rw [if_pos hs4]

theorem hasApp_total_eq (a : App) (wp : WebPage) (a2 : App) (h : hasApp a wp = (a2, true)) :
    a2.confidenceTotal = some (confidenceSum a2.confidence) := by
  unfold hasApp at h
  dsimp only at h
  by_cases hc : (htmlFold wp a.html (metaFold wp a.meta (scriptFold wp a.script
      (headersFold wp a.headers (urlFold wp a.url a, false))))).2 = true
  · rw [if_pos hc] at h
    have h1 := congrArg Prod.fst h
    simp only [] at h1
    rw [← h1]
  · rw [if_neg hc] at h
    rw [h] at hc
    simp at hc

/-! ## Lemmas about the analyze loop and the store -/

theorem mem_directDetected_of (w : Wapp) (wp : WebPage) (name : String) (a : App)
    (hmem : (name, a) ∈ w.apps) (hflag : (hasApp a wp).2 = true) :
    name ∈ directDetected w wp := by
  unfold directDetected
  exact List.mem_map.mpr ⟨(name, a), List.mem_filter.mpr ⟨hmem, by simpa using hflag⟩, rfl⟩

theorem nodup_keys_eq {α β : Type} (l : List (α × β)) (hnd : (l.map Prod.fst).Nodup)
    (k : α) (x y : β) (hx : (k, x) ∈ l) (hy : (k, y) ∈ l) : x = y := by
  induction l with
  | nil => simp at hx
  | cons e rest ih =>
      simp only [List.map_cons, List.nodup_cons] at hnd
      rcases List.mem_cons.mp hx with hex | hxr
      · rcases List.mem_cons.mp hy with hey | hyr
        · rw [← hex] at hey
          exact (congrArg Prod.snd hey).symm
        · exfalso
          apply hnd.1
          rw [← hex]
          exact List.mem_map.mpr ⟨(k, y), hyr, rfl⟩
      · rcases List.mem_cons.mp hy with hey | hyr
        · exfalso
          apply hnd.1
          rw [← hey]
          exact List.mem_map.mpr ⟨(k, x), hxr, rfl⟩
        · exact ih hnd.2 hxr hyr

theorem not_mem_directDetected (w : Wapp) (wp : WebPage) (name : String) (a : App)
    (hnd : (w.apps.map Prod.fst).Nodup) (hmem : (name, a) ∈ w.apps)
    (hflag : (hasApp a wp).2 = false) : name ∉ directDetected w wp := by
  intro hin
  unfold directDetected at hin
  obtain ⟨e, hef, heq⟩ := List.mem_map.mp hin
  have hel := (List.mem_filter.mp hef).1
  have hflag2 := (List.mem_filter.mp hef).2
  cases e with
  | mk e1 e2 =>
      simp only at heq
      rw [heq] at hel
      have he2 : e2 = a := nodup_keys_eq w.apps hnd name e2 a hel hmem
      rw [he2] at hflag2
      rw [hflag] at hflag2
      simp at hflag2

theorem dlookupA_mem (d : List (String × App)) (k : String) (a : App)
    (h : dlookupA d k = some a) : (k, a) ∈ d := by
  unfold dlookupA at h
  cases hf : d.find? (fun e => e.1 = k) with
  | none => rw [hf] at h; simp at h
  | some e =>
      rw [hf] at h
      have he := List.mem_of_find?_eq_some hf
      have hk := List.find?_some hf
      cases e with
      | mk e1 e2 =>
          simp at h hk
          rw [← h, ← hk]
          exact he

theorem find_map_keys (d : List (String × App)) (f : String × App → App) (k : String) :
    ((d.map (fun e => (e.1, f e))).find? (fun e => e.1 = k)).map (fun e => e.2)
      = (d.find? (fun e => e.1 = k)).map f := by
  induction d with
  | nil => rfl
  | cons e rest ih =>
      by_cases hk : e.1 = k
      · simp [List.find?_cons_of_pos, hk]
      · simp only [List.map_cons]
        rw [List.find?_cons_of_neg _ (by simpa using hk),
          List.find?_cons_of_neg _ (by simpa using hk)]
        exact ih

theorem dlookupA_analyzeStore (w : Wapp) (wp : WebPage) (k : String) :
    dlookupA (analyzeStore w wp).apps k
      = (dlookupA w.apps k).map (fun a => (hasApp a wp).1) := by
  unfold analyzeStore dlookupA
  simp only []
  rw [find_map_keys w.apps (fun e => (hasApp e.2 wp).1) k]
  cases hf : w.apps.find? (fun e => e.1 = k) <;> simp [hf]

/-! ## Lemmas about the implied-apps fixed point -/

theorem mem_pyUnion (x : String) (a b : List String) :
    x ∈ pyUnion a b ↔ x ∈ a ∨ x ∈ b := by
  unfold pyUnion
  simp only [List.mem_append, List.mem_filter, Bool.not_eq_true', decide_eq_false_iff_not]
  constructor
  · rintro (h | ⟨h, _⟩)
    · exact Or.inl h
    · exact Or.inr h
  · rintro (h | h)
    · exact Or.inl h
    · by_cases ha : x ∈ a
      · exact Or.inl ha
      · exact Or.inr ⟨h, ha⟩

theorem mem_impliedStep (w : Wapp) (l : List String) (x : String) :
    x ∈ impliedStep w l ↔ ∃ a ∈ l, x ∈ impliesOf w a := by
  unfold impliedStep
  suffices h : ∀ (l2 acc : List String),
      x ∈ l2.foldl (fun acc a => pyUnion acc (impliesOf w a)) acc
        ↔ x ∈ acc ∨ ∃ a ∈ l2, x ∈ impliesOf w a by
    simpa using h l []
  intro l2
  induction l2 with
  | nil => intro acc; simp
  | cons a rest ih =>
      intro acc
      simp only [List.foldl_cons, ih, mem_pyUnion]
      constructor
      · rintro ((h | h) | ⟨a2, hmem, hx⟩)
        · exact Or.inl h
        · exact Or.inr ⟨a, List.mem_cons_self a rest, h⟩
        · exact Or.inr ⟨a2, List.mem_cons_of_mem a hmem, hx⟩
      · rintro (h | ⟨a2, hmem, hx⟩)
        · exact Or.inl (Or.inl h)
        · rcases List.mem_cons.mp hmem with heq | hrest
          · subst heq; exact Or.inl (Or.inr hx)
          · exact Or.inr ⟨a2, hrest, hx⟩

theorem mem_impliesUniverse (d : List (String × App)) (e : String × App) (he : e ∈ d)
    (x : String) (hx : x ∈ e.2.implies) :
    x ∈ d.foldr (fun e2 acc => e2.2.implies ++ acc) [] := by
  induction d with
  | nil => simp at he
  | cons hd rest ih =>
      simp only [List.foldr_cons, List.mem_append]
      rcases List.mem_cons.mp he with heq | hrest
      · subst heq; exact Or.inl hx
      · exact Or.inr (ih hrest)

theorem impliedStep_subset_universe (w : Wapp) (l : List String) (x : String)
    (h : x ∈ impliedStep w l) : x ∈ impliesUniverseList w := by
  rw [mem_impliedStep] at h
  obtain ⟨a, _, hx⟩ := h
  unfold impliesOf at hx
  cases hd : dlookupA w.apps a with
  | none => rw [hd] at hx; simp at hx
  | some app =>
      rw [hd] at hx
      exact mem_impliesUniverse w.apps (a, app) (dlookupA_mem w.apps a app hd) x hx

theorem impliedLoopFuel_isSome (w : Wapp) : ∀ (n : Nat) (all implied : List String),
    (∀ x ∈ implied, x ∈ impliesUniverseList w) →
    ((impliesUniverseList w).toFinset \ all.toFinset).card < n →
    (impliedLoopFuel w n all implied).isSome = true := by
  intro n
  induction n with
  | zero => intro all implied _ hcard; omega
  | succ n ih =>
      intro all implied hsub hcard
      unfold impliedLoopFuel
      by_cases hss : ∀ x ∈ implied, x ∈ all
      · rw [if_pos hss]; rfl
      · rw [if_neg hss]
        apply ih
        · intro x hx
          exact impliedStep_subset_universe w _ x hx
        · push_neg at hss
          obtain ⟨x, hxi, hxa⟩ := hss
          have hxu : x ∈ impliesUniverseList w := hsub x hxi
          have hsubset : (impliesUniverseList w).toFinset \ (pyUnion all implied).toFinset
              ⊂ (impliesUniverseList w).toFinset \ all.toFinset := by
            constructor
            · refine Finset.sdiff_subset_sdiff (le_refl _) ?_
              intro y hy
              rw [List.mem_toFinset] at hy
              rw [List.mem_toFinset]
              exact (mem_pyUnion y all implied).mpr (Or.inl hy)
            · intro hsup
              have hx1 : x ∈ (impliesUniverseList w).toFinset \ all.toFinset := by
                rw [Finset.mem_sdiff, List.mem_toFinset, List.mem_toFinset]
                exact ⟨hxu, hxa⟩
              have hx2 := hsup hx1
              rw [Finset.mem_sdiff, List.mem_toFinset, List.mem_toFinset] at hx2
              exact hx2.2 ((mem_pyUnion x all implied).mpr (Or.inr hxi))
          have := Finset.card_lt_card hsubset
          omega

theorem impliedLoopFuel_closure (w : Wapp) : ∀ (n : Nat) (all implied res : List String),
    impliedLoopFuel w n all implied = some res →
    (∀ x ∈ impliedStep w all, x ∈ all ∨ x ∈ implied) →
    ((∀ x ∈ impliedStep w res, x ∈ res) ∧ (∀ x, (x ∈ all ∨ x ∈ implied) → x ∈ res)) := by
  intro n
  induction n with
  | zero => intro all implied res h _; simp [impliedLoopFuel] at h
  | succ n ih =>
      intro all implied res h hinv
      unfold impliedLoopFuel at h
      by_cases hss : ∀ x ∈ implied, x ∈ all
      · rw [if_pos hss] at h
        simp only [Option.some.injEq] at h
        subst h
        constructor
        · intro x hx
          rcases hinv x hx with h1 | h2
          · exact h1
          · exact hss x h2
        · intro x hx
          rcases hx with h1 | h2
          · exact h1
          · exact hss x h2
      · rw [if_neg hss] at h
        have hrec := ih (pyUnion all implied) (impliedStep w (pyUnion all implied)) res h
          (fun x hx => Or.inr hx)
        refine ⟨hrec.1, ?_⟩
        intro x hx
        exact hrec.2 x (Or.inl ((mem_pyUnion x all implied).mpr hx))

theorem getImpliedAppsOpt_isSome (w : Wapp) (detected : List String) :
    (getImpliedAppsOpt w detected).isSome = true := by
  unfold getImpliedAppsOpt
  apply impliedLoopFuel_isSome
  · intro x hx
    exact impliedStep_subset_universe w detected x hx
  · have h1 : (impliesUniverseList w).toFinset.card ≤ (impliesUniverseList w).length :=
      List.toFinset_card_le _
    simp only [List.toFinset_nil, Finset.sdiff_empty]
    omega

theorem getImpliedApps_closed (w : Wapp) (detected res : List String)
    (hres : getImpliedAppsOpt w detected = some res) :
    (∀ x ∈ impliedStep w res, x ∈ res) ∧ (∀ x ∈ impliedStep w detected, x ∈ res) := by
  unfold getImpliedAppsOpt at hres
  have hstep : ∀ x ∈ impliedStep w ([] : List String), x ∈ ([] : List String) ∨ x ∈ impliedStep w detected := by
    intro x hx
    rw [mem_impliedStep] at hx
    obtain ⟨a, ha, _⟩ := hx
    simp at ha
  have h := impliedLoopFuel_closure w _ [] (impliedStep w detected) res hres hstep
  exact ⟨h.1, fun x hx => h.2 x (Or.inr hx)⟩

/-! ## Claim C1 -/

/-- Shared closure fact: the set returned by analyze is closed under
the implies lists of its store entries. -/
theorem analyze_implies_mem (w : Wapp) (wp : WebPage) :
    ∀ T ∈ (analyze w wp).2, ∀ a : App, dlookupA w.apps T = some a →
        ∀ n ∈ a.implies, n ∈ (analyze w wp).2 := by
  intro T hT a ha n hn
  cases hres : getImpliedAppsOpt (analyzeStore w wp) (directDetected w wp) with
  | none =>
      have := getImpliedAppsOpt_isSome (analyzeStore w wp) (directDetected w wp)
      rw [hres] at this
      simp at this
  | some res =>
      obtain ⟨hC, hD⟩ := getImpliedApps_closed (analyzeStore w wp) (directDetected w wp) res hres
      have hL : getImpliedApps (analyzeStore w wp) (directDetected w wp) = res := by
        unfold getImpliedApps
        rw [hres]
        rfl
      have hres2 : (analyze w wp).2 = pyUnion (directDetected w wp) res := by
        show pyUnion (directDetected w wp)
          (getImpliedApps (analyzeStore w wp) (directDetected w wp))
            = pyUnion (directDetected w wp) res
        rw [hL]
      have himpl : impliesOf (analyzeStore w wp) T = a.implies := by
        unfold impliesOf
        rw [dlookupA_analyzeStore w wp T, ha]
        show ((hasApp a wp).1).implies = a.implies
        exact ((grows_hasApp a wp).2.2.2.2).symm
      rw [hres2] at hT ⊢
      rw [mem_pyUnion] at hT
      rw [mem_pyUnion]
      rcases hT with hTd | hTr
      · refine Or.inr (hD n ?_)
        rw [mem_impliedStep]
        exact ⟨T, hTd, by rw [himpl]; exact hn⟩
      · refine Or.inr (hC n ?_)
        rw [mem_impliedStep]
        exact ⟨T, hTr, by rw [himpl]; exact hn⟩

/-- Claim C1 (confirmed): the implied-technology expansion of analyze
terminates (the fixed-point loop reaches its guard within the stated
fuel, so the fuelled loop returns some result even on cyclic
implication graphs), and the set returned by analyze is closed under
implication: for every returned technology that is an entry of the
store, every name in its implies list is also in the returned set. -/
theorem c1_closure (w : Wapp) (wp : WebPage) :
    (getImpliedAppsOpt (analyzeStore w wp) (directDetected w wp)).isSome = true
    ∧ ∀ T ∈ (analyze w wp).2, ∀ a : App, dlookupA w.apps T = some a →
        ∀ n ∈ a.implies, n ∈ (analyze w wp).2 :=
  ⟨getImpliedAppsOpt_isSome _ _, analyze_implies_mem w wp⟩

/-- Witness for claim C1: the cyclic two-app store (A detected via
html implies B, B implies A); the loop terminates and B is pulled into
the result. -/
theorem c1_witness :
    (getImpliedAppsOpt (analyzeStore wCyc wpEx) (directDetected wCyc wpEx)).isSome = true
    ∧ ("B") ∈ (analyze wCyc wpEx).2 :=
  ⟨(c1_closure wCyc wpEx).1,
   (c1_closure wCyc wpEx).2 ("A") (by decide)
     { blankApp with html := [patAlways], implies := [("B")] } rfl ("B") (by decide)⟩

/-! ## Claim C10 -/

theorem mapM_error_of_mem {γ : Type} (f : String → Except String γ) (l : List String)
    (x : String) (hx : x ∈ l) (e : String) (he : f x = .error e) :
    ∃ e2, l.mapM f = Except.error e2 := by
  induction l with
  | nil => simp at hx
  | cons a rest ih =>
      cases hf : f a with
      | error ea =>
          refine ⟨ea, ?_⟩
          rw [List.mapM_cons, hf]
          rfl
      | ok va =>
          rcases List.mem_cons.mp hx with heq | hrest
          · subst heq
            rw [he] at hf
            simp at hf
          · obtain ⟨e2, he2⟩ := ih hrest
            refine ⟨e2, ?_⟩
            rw [List.mapM_cons, hf, he2]
            rfl

/-- Claim C10 (confirmed): analyze may return implied names that are
not keys of the store: a name in a detected technology's implies list
is added to the result even when no entry of that name exists (the
closure silently treats unknown names as having no implications
instead of failing, the impliesOf model of the swallowed KeyError);
get_versions on such a name raises KeyError, and therefore
analyze_with_versions on a result containing such a name raises
instead of returning an empty version list. -/
theorem c10_unknown_implied (w : Wapp) (wp : WebPage) (n : String) :
    (∀ (T : String) (a : App), T ∈ directDetected w wp → dlookupA w.apps T = some a →
        n ∈ a.implies → n ∈ (analyze w wp).2)
    ∧ (dlookupA w.apps n = none → getVersions w n = .error ("KeyError"))
    ∧ (n ∈ (analyze w wp).2 → dlookupA w.apps n = none →
        ∃ e, analyzeWithVersions w wp = Except.error e) := by
  refine ⟨?_, ?_, ?_⟩
  · intro T a hT ha hn
    have hTset : T ∈ (analyze w wp).2 := by
      show T ∈ pyUnion (directDetected w wp)
        (getImpliedApps (analyzeStore w wp) (directDetected w wp))
      rw [mem_pyUnion]
      exact Or.inl hT
    exact analyze_implies_mem w wp T hTset a ha n hn
  · intro hnone
    unfold getVersions
    rw [hnone]
  · intro hmem hnone
    have hnone2 : dlookupA (analyzeStore w wp).apps n = none := by
      rw [dlookupA_analyzeStore w wp n, hnone]
      rfl
    have herr : (fun name => (getVersions (analyze w wp).1 name).map
        (fun vs => (name, vs))) n = Except.error ("KeyError") := by
      show (getVersions (analyzeStore w wp) n).map (fun vs => (n, vs)) = _
      unfold getVersions
      rw [hnone2]
      rfl
    exact mapM_error_of_mem _ (analyze w wp).2 n hmem ("KeyError") herr

/-- Witness for claim C10: the store whose only app implies the
unknown name Ghost. -/
theorem c10_witness :
    ("Ghost") ∈ (analyze wGhost wpEx).2
    ∧ getVersions wGhost ("Ghost") = .error ("KeyError")
    ∧ ∃ e, analyzeWithVersions wGhost wpEx = Except.error e :=
  ⟨(c10_unknown_implied wGhost wpEx ("Ghost")).1 ("A")
      { blankApp with html := [patAlways], implies := [("Ghost")] } (by decide) rfl (by decide),
   (c10_unknown_implied wGhost wpEx ("Ghost")).2.1 rfl,
   (c10_unknown_implied wGhost wpEx ("Ghost")).2.2
     ((c10_unknown_implied wGhost wpEx ("Ghost")).1 ("A")
       { blankApp with html := [patAlways], implies := [("Ghost")] } (by decide) rfl (by decide))
     rfl⟩

/-! ## Claim C2 -/

theorem grows_hasApp_from_url (a : App) (wp : WebPage) :
    AppGrows (urlFold wp a.url a) (hasApp a wp).1 := by
  unfold hasApp
  dsimp only
  have g1 := grows_headersFold wp a.headers (urlFold wp a.url a, false)
  have g2 := g1.trans
    (grows_scriptFold wp a.script (headersFold wp a.headers (urlFold wp a.url a, false)))
  have g3 := g2.trans (grows_metaFold wp a.meta
    (scriptFold wp a.script (headersFold wp a.headers (urlFold wp a.url a, false))))
  have g4 := g3.trans (grows_htmlFold wp a.html
    (metaFold wp a.meta
      (scriptFold wp a.script (headersFold wp a.headers (urlFold wp a.url a, false)))))
  split
  · exact g4.trans (grows_setTotal _ _)
  · exact g4

theorem mem_dictInsert_self (d : List (String × Int)) (k : String) (v : Int) :
    ∃ c, (k, c) ∈ dictInsert d k v := by
  unfold dictInsert
  by_cases hk : d.any (fun e => e.1 = k)
  · rw [if_pos hk]
    rw [List.any_eq_true] at hk
    obtain ⟨e, he, hek⟩ := hk
    simp only [decide_eq_true_eq] at hek
    exact ⟨v, List.mem_map.mpr ⟨e, he, by simp [hek]⟩⟩
  · rw [if_neg hk]
    exact ⟨v, List.mem_append_right _ (by simp)⟩

theorem urlFold_label (wp : WebPage) (pats : List Pattern) (a : App) (p : Pattern)
    (hp : p ∈ pats) (hs : p.regex.search wp.url = true) :
    ∃ c, (("url" ++ " " ++ p.string), c) ∈ (urlFold wp pats a).confidence := by
  induction pats generalizing a with
  | nil => simp at hp
  | cons hd rest ih =>
      unfold urlFold
      simp only [List.foldl_cons]
      rcases List.mem_cons.mp hp with heq | hrest
      · subst heq
        rw [if_pos hs]
        have hbase : ∃ c, (("url" ++ " " ++ p.string), c)
            ∈ (setDetectedApp a ("url") p wp.url ("")).confidence := by
          rw [setDetectedApp_confidence]
          have hlab : ("url" ++ " " ++ (if ("" : String) ≠ "" then ("" : String) ++ " " else "")
              ++ p.string) = ("url" ++ " " ++ p.string) := by
            simp
          rw [hlab]
          exact mem_dictInsert_self _ _ _
        obtain ⟨c, hc⟩ := hbase
        obtain ⟨c2, hc2⟩ :=
          (grows_urlFold wp rest (setDetectedApp a ("url") p wp.url (""))).2.1 _ c hc
        exact ⟨c2, hc2⟩
      · by_cases hhd : hd.regex.search wp.url = true
        · rw [if_pos hhd]
          exact ih _ hrest
        · rw [if_neg hhd]
          exact ih _ hrest

/-- Claim C2 (corrected): a technology whose only matching patterns
are url patterns is not directly detected: has_app returns false, and
with unique store keys its name does not appear among the
directly-detected names.  It can nevertheless appear in the set
returned by analyze when another detected technology implies it, so
the original claim (not in the analyze result at all) fails.  If at
least one headers, script, meta or html pattern fires, the name is in
the returned set; and a firing url pattern still records its
confidence label. -/
theorem c2_url_asymmetry (w : Wapp) (wp : WebPage) (name : String) (a : App) :
    (urlOnlyMatches a wp = true → (hasApp a wp).2 = false)
    ∧ (urlOnlyMatches a wp = true → (w.apps.map Prod.fst).Nodup → (name, a) ∈ w.apps →
        name ∉ directDetected w wp)
    ∧ (someNonUrlFires a wp = true → (hasApp a wp).2 = true)
    ∧ (someNonUrlFires a wp = true → (name, a) ∈ w.apps → name ∈ (analyze w wp).2)
    ∧ (∀ p ∈ a.url, p.regex.search wp.url = true →
        ∃ c, (("url" ++ " " ++ p.string), c) ∈ (hasApp a wp).1.confidence) := by
  refine ⟨?_, ?_, ?_, ?_, ?_⟩
  · intro h
    rw [hasApp_of_urlOnly a wp h]
  · intro h hnd hmem
    exact not_mem_directDetected w wp name a hnd hmem (by rw [hasApp_of_urlOnly a wp h])
  · exact hasApp_flag_of_fire a wp
  · intro h hmem
    have hdir := mem_directDetected_of w wp name a hmem (hasApp_flag_of_fire a wp h)
    show name ∈ pyUnion (directDetected w wp)
      (getImpliedApps (analyzeStore w wp) (directDetected w wp))
    rw [mem_pyUnion]
    exact Or.inl hdir
  · intro p hp hs
    obtain ⟨c, hc⟩ := urlFold_label wp a.url a p hp hs
    obtain ⟨c2, hc2⟩ := (grows_hasApp_from_url a wp).2.1 _ c hc
    exact ⟨c2, hc2⟩

/-- Counterexample for claim C2 as stated: in the two-app store, the
A entry matches only through its url pattern (which does fire and
records its label), has_app is false for it, and yet A is in the set
returned by analyze because the detected B implies it. -/
theorem c2_counterexample :
    urlOnlyMatches { blankApp with url := [patAlways] } wpEx = true
    ∧ (hasApp { blankApp with url := [patAlways] } wpEx).2 = false
    ∧ (∃ c, (("url" ++ " " ++ patAlways.string), c)
        ∈ (hasApp { blankApp with url := [patAlways] } wpEx).1.confidence)
    ∧ ("A") ∈ (analyze wUrlOnly wpEx).2 :=
  ⟨by decide, by decide, ⟨100, by decide⟩, by decide⟩

/-- Witness for claim C2: the corrected theorem applied to both
entries of the two-app store. -/
theorem c2_witness :
    (hasApp { blankApp with url := [patAlways] } wpEx).2 = false
    ∧ ("A") ∉ directDetected wUrlOnly wpEx
    ∧ (hasApp { blankApp with html := [patAlways], implies := [("A")] } wpEx).2 = true
    ∧ ("B") ∈ (analyze wUrlOnly wpEx).2
    ∧ (∃ c, (("url" ++ " " ++ patAlways.string), c)
        ∈ (hasApp { blankApp with url := [patAlways] } wpEx).1.confidence) :=
  ⟨(c2_url_asymmetry wUrlOnly wpEx ("A") { blankApp with url := [patAlways] }).1 (by decide),
   (c2_url_asymmetry wUrlOnly wpEx ("A") { blankApp with url := [patAlways] }).2.1
     (by decide) (by decide) (List.mem_cons_self _ _),
   (c2_url_asymmetry wUrlOnly wpEx ("B")
     { blankApp with html := [patAlways], implies := [("A")] }).2.2.1 (by decide),
   (c2_url_asymmetry wUrlOnly wpEx ("B")
     { blankApp with html := [patAlways], implies := [("A")] }).2.2.2.1 (by decide)
     (List.mem_cons_of_mem _ (List.mem_cons_self _ _)),
   (c2_url_asymmetry wUrlOnly wpEx ("A") { blankApp with url := [patAlways] }).2.2.2.2
     patAlways (List.mem_cons_self _ _) (by decide)⟩

/-! ## Claim C3 -/

theorem dictInsert_keys_nodup (d : List (String × Int)) (k : String) (v : Int)
    (h : (d.map Prod.fst).Nodup) : ((dictInsert d k v).map Prod.fst).Nodup := by
  unfold dictInsert
  by_cases hk : d.any (fun e => e.1 = k)
  · rw [if_pos hk]
    have hmap : (d.map (fun e => if e.1 = k then (k, v) else e)).map Prod.fst
        = d.map Prod.fst := by
      rw [List.map_map]
      apply List.map_congr_left
      intro e _
      by_cases hek : e.1 = k
      · simp [hek]
      · simp [hek]
    rw [hmap]
    exact h
  · rw [if_neg hk]
    rw [List.map_append]
    rw [Bool.not_eq_true, List.any_eq_false] at hk
    have hknot : k ∉ d.map Prod.fst := by
      intro hkin
      obtain ⟨e, he, hek⟩ := List.mem_map.mp hkin
      exact absurd (by simpa using hek) (by simpa using hk e he)
    simp [List.nodup_append, h, hknot]

theorem confKeys_setDetectedApp (a : App) (t : String) (p : Pattern) (v k : String)
    (h : (a.confidence.map Prod.fst).Nodup) :
    ((setDetectedApp a t p v k).confidence.map Prod.fst).Nodup := by
  rw [setDetectedApp_confidence]
  exact dictInsert_keys_nodup _ _ _ h

theorem confKeys_urlFold (wp : WebPage) (pats : List Pattern) (a : App)
    (h : (a.confidence.map Prod.fst).Nodup) :
    ((urlFold wp pats a).confidence.map Prod.fst).Nodup := by
  unfold urlFold
  refine foldl_pred (fun s : App => (s.confidence.map Prod.fst).Nodup) _ pats a ?_ h
  intro s2 x h2
  by_cases hs : x.regex.search wp.url = true
  · rw [if_pos hs]
    exact confKeys_setDetectedApp _ _ _ _ _ h2
  · rw [if_neg hs]
    exact h2

theorem confKeys_headersFold (wp : WebPage) (pats : List (String × Pattern)) (s : App × Bool)
    (h : (s.1.confidence.map Prod.fst).Nodup) :
    ((headersFold wp pats s).1.confidence.map Prod.fst).Nodup := by
  unfold headersFold
  refine foldl_pred (fun s2 : App × Bool => (s2.1.confidence.map Prod.fst).Nodup) _ pats s ?_ h
  intro s2 x h2
  cases hl : hlookup wp.headers x.1 with
  | none => simpa [hl] using h2
  | some content =>
      simp only [hl]
      by_cases hs : x.2.regex.search content = true
      · rw [if_pos hs]
        exact confKeys_setDetectedApp _ _ _ _ _ h2
      · rw [if_neg hs]
        exact h2

theorem confKeys_scriptFold (wp : WebPage) (pats : List Pattern) (s : App × Bool)
    (h : (s.1.confidence.map Prod.fst).Nodup) :
    ((scriptFold wp pats s).1.confidence.map Prod.fst).Nodup := by
  unfold scriptFold
  refine foldl_pred (fun s2 : App × Bool => (s2.1.confidence.map Prod.fst).Nodup) _ pats s ?_ h
  intro s2 x h2
  refine foldl_pred (fun s3 : App × Bool => (s3.1.confidence.map Prod.fst).Nodup) _
    wp.scripts s2 ?_ h2
  intro s3 scr h3
  by_cases hs : x.regex.search scr = true
  · rw [if_pos hs]
    exact confKeys_setDetectedApp _ _ _ _ _ h3
  · rw [if_neg hs]
    exact h3

theorem confKeys_metaFold (wp : WebPage) (pats : List (String × Pattern)) (s : App × Bool)
    (h : (s.1.confidence.map Prod.fst).Nodup) :
    ((metaFold wp pats s).1.confidence.map Prod.fst).Nodup := by
  unfold metaFold
  refine foldl_pred (fun s2 : App × Bool => (s2.1.confidence.map Prod.fst).Nodup) _ pats s ?_ h
  intro s2 x h2
  cases hl : hlookup wp.meta x.1 with
  | none => simpa [hl] using h2
  | some content =>
      simp only [hl]
      by_cases hs : x.2.regex.search content = true
      · rw [if_pos hs]
        exact confKeys_setDetectedApp _ _ _ _ _ h2
      · rw [if_neg hs]
        exact h2

theorem confKeys_htmlFold (wp : WebPage) (pats : List Pattern) (s : App × Bool)
    (h : (s.1.confidence.map Prod.fst).Nodup) :
    ((htmlFold wp pats s).1.confidence.map Prod.fst).Nodup := by
  unfold htmlFold
  refine foldl_pred (fun s2 : App × Bool => (s2.1.confidence.map Prod.fst).Nodup) _ pats s ?_ h
  intro s2 x h2
  by_cases hs : x.regex.search wp.html = true
  · rw [if_pos hs]
    exact confKeys_setDetectedApp _ _ _ _ _ h2
  · rw [if_neg hs]
    exact h2

theorem confKeys_hasApp (a : App) (wp : WebPage) (h : (a.confidence.map Prod.fst).Nodup) :
    (((hasApp a wp).1).confidence.map Prod.fst).Nodup := by
  unfold hasApp
  dsimp only
  have h1 := confKeys_urlFold wp a.url a h
  have h2 := confKeys_headersFold wp a.headers (urlFold wp a.url a, false) h1
  have h3 := confKeys_scriptFold wp a.script _ h2
  have h4 := confKeys_metaFold wp a.meta _ h3
  have h5 := confKeys_htmlFold wp a.html _ h4
  split
  · exact h5
  · exact h5

theorem map_any_key (d : List (String × Int)) (k : String) (f : String × Int → String × Int)
    (hf : ∀ e, (f e).1 = e.1) : (d.map f).any (fun e => e.1 = k) = d.any (fun e => e.1 = k) := by
  induction d with
  | nil => rfl
  | cons e rest ih => simp [hf e, ih]

theorem dictInsert_idem (d : List (String × Int)) (k : String) (v : Int) :
    dictInsert (dictInsert d k v) k v = dictInsert d k v := by
  by_cases hk : d.any (fun e => e.1 = k)
  · have h1 : dictInsert d k v = d.map (fun e => if e.1 = k then (k, v) else e) := by
      unfold dictInsert
      rw [if_pos hk]
    rw [h1]
    unfold dictInsert
    have hany : (d.map (fun e => if e.1 = k then (k, v) else e)).any (fun e => e.1 = k)
        = true := by
      rw [List.any_eq_true] at hk ⊢
      obtain ⟨e, he, hek⟩ := hk
      refine ⟨if e.1 = k then (k, v) else e, List.mem_map.mpr ⟨e, he, rfl⟩, ?_⟩
      simp only [decide_eq_true_eq] at hek
      simp [hek]
    rw [if_pos hany]
    rw [List.map_map]
    apply List.map_congr_left
    intro e _
    by_cases hek : e.1 = k
    · simp [hek]
    · simp [hek]
  · have h1 : dictInsert d k v = d ++ [(k, v)] := by
      unfold dictInsert
      rw [if_neg hk]
    rw [h1]
    unfold dictInsert
    have hany : (d ++ [(k, v)]).any (fun e => e.1 = k) = true := by
      rw [List.any_eq_true]
      exact ⟨(k, v), List.mem_append_right _ (by simp), by simp⟩
    rw [if_pos hany]
    rw [List.map_append]
    rw [Bool.not_eq_true, List.any_eq_false] at hk
    have hmap : d.map (fun e => if e.1 = k then (k, v) else e) = d := by
      have hpt : ∀ e ∈ d, (if e.1 = k then (k, v) else e) = id e := by
        intro e he
        simp only [id]
        exact if_neg (by simpa using hk e he)
      rw [List.map_congr_left hpt, List.map_id]
    rw [hmap]
    have hone : [(k, v)].map (fun e => if e.1 = k then (k, v) else e) = [(k, v)] := by
      simp
    rw [hone]

/-- Claim C3 (confirmed): for a technology marked detected, the
recorded confidence total is the sum of the weights stored under the
distinct firing labels (the label dict keys stay pairwise distinct),
the weight of a pattern is its parsed confidence attribute or 100 by
default, and a pattern firing twice under the identical label
overwrites its entry rather than contributing twice. -/
theorem c3_confidence (a : App) (wp : WebPage) (a2 : App)
    (hnd : (a.confidence.map Prod.fst).Nodup) (h : hasApp a wp = (a2, true)) :
    a2.confidenceTotal = some (confidenceSum a2.confidence)
    ∧ (a2.confidence.map Prod.fst).Nodup
    ∧ (∀ p : Pattern, p.confidence = none → patternWeight p = 100)
    ∧ ∀ (b : App) (t : String) (p : Pattern) (v k : String),
        (setDetectedApp (setDetectedApp b t p v k) t p v k).confidence
          = (setDetectedApp b t p v k).confidence := by
  refine ⟨hasApp_total_eq a wp a2 h, ?_, ?_, ?_⟩
  · have h1 := confKeys_hasApp a wp hnd
    have h2 : (hasApp a wp).1 = a2 := by rw [h]
    rw [h2] at h1
    exact h1
  · intro p hp
    unfold patternWeight
    rw [hp]
  · intro b t p v k
    simp only [setDetectedApp_confidence]
    exact dictInsert_idem _ _ _

/-- Witness for claim C3: the app whose single script pattern fires
on both script urls of the page, producing the identical label twice;
the total is 100, not 200. -/
theorem c3_witness :
    ((hasApp appTwice wpEx).1).confidenceTotal
        = some (confidenceSum ((hasApp appTwice wpEx).1).confidence)
    ∧ (((hasApp appTwice wpEx).1).confidence.map Prod.fst).Nodup
    ∧ confidenceSum ((hasApp appTwice wpEx).1).confidence = 100 := by
  have h := c3_confidence appTwice wpEx ((hasApp appTwice wpEx).1) (by decide) rfl
  exact ⟨h.1, h.2.1, by decide⟩

/-! ## Claim C9 -/

/-- Claim C9 (confirmed): per-analysis results are written onto the
shared entries and never reset: across an analyze call, every version
already recorded for a technology stays in its version list (as
reported by get_versions against the mutated store), a present
confidence total stays present (get_confidence still reports a
total), every confidence label keeps an entry, and the detected flag
stays set. -/
theorem c9_accumulation (w : Wapp) (wp : WebPage) (name : String) :
    (∀ vs, getVersions w name = .ok vs →
        ∃ vs2, getVersions (analyze w wp).1 name = .ok vs2 ∧ ∀ v ∈ vs, v ∈ vs2)
    ∧ (∀ t : Int, getConfidence w name = .ok (some t) →
        ∃ t2, getConfidence (analyze w wp).1 name = .ok (some t2))
    ∧ (∀ a : App, dlookupA w.apps name = some a →
        ∃ a2, dlookupA (analyze w wp).1.apps name = some a2
          ∧ (∀ l c, (l, c) ∈ a.confidence → ∃ c2, (l, c2) ∈ a2.confidence)
          ∧ (a.detected = true → a2.detected = true)) := by
  have hstore : (analyze w wp).1 = analyzeStore w wp := rfl
  refine ⟨?_, ?_, ?_⟩
  · intro vs hvs
    cases hd : dlookupA w.apps name with
    | none => unfold getVersions at hvs; rw [hd] at hvs; simp at hvs
    | some a =>
        unfold getVersions at hvs
        rw [hd] at hvs
        simp only [Except.ok.injEq] at hvs
        refine ⟨versionsList ((hasApp a wp).1), ?_, ?_⟩
        · unfold getVersions
          rw [hstore, dlookupA_analyzeStore w wp name, hd]
          rfl
        · intro v hv
          rw [← hvs] at hv
          exact (grows_hasApp a wp).1 v hv
  · intro t ht
    cases hd : dlookupA w.apps name with
    | none => unfold getConfidence at ht; rw [hd] at ht; simp at ht
    | some a =>
        unfold getConfidence at ht
        rw [hd] at ht
        simp only [Except.ok.injEq] at ht
        have hsome : ((hasApp a wp).1).confidenceTotal.isSome = true := by
          apply (grows_hasApp a wp).2.2.2.1
          rw [ht]
          rfl
        obtain ⟨t2, ht2⟩ := Option.isSome_iff_exists.mp hsome
        refine ⟨t2, ?_⟩
        unfold getConfidence
        rw [hstore, dlookupA_analyzeStore w wp name, hd]
        simp only [Option.map_some']
        rw [ht2]
  · intro a ha
    refine ⟨(hasApp a wp).1, ?_, (grows_hasApp a wp).2.1, (grows_hasApp a wp).2.2.1⟩
    rw [hstore, dlookupA_analyzeStore w wp name, ha]
    rfl

/-- Witness for claim C9: the store whose app A already carries a
version, a label and a total from an earlier analysis. -/
theorem c9_witness :
    (∃ vs2, getVersions (analyze wPrev wpEx).1 ("A") = .ok vs2 ∧ ∀ v ∈ [("1.0")], v ∈ vs2)
    ∧ (∃ t2, getConfidence (analyze wPrev wpEx).1 ("A") = .ok (some t2)) :=
  ⟨(c9_accumulation wPrev wpEx ("A")).1 [("1.0")] rfl,
   (c9_accumulation wPrev wpEx ("A")).2.1 100 rfl⟩

/-! ## Claim C8 -/

/-- Claim C8 (code bug): get_categories on an app with an unknown
category id raises (the model returns the AttributeError branch)
instead of substituting the empty string: in wCats, app X references
category ids 1 and 99 but the table only knows 1.  The surrounding
behaviour the claim describes does hold: known ids map through the
table, and an unknown app name yields the empty list. -/
theorem c8_category_bug :
    getCategories wCats ("X") = .error ("AttributeError: str object has no attribute get")
    ∧ getCategories wCats ("Y") = .ok [("CMS")]
    ∧ getCategories wCats ("Nope") = .ok [] :=
  ⟨rfl, rfl, rfl⟩

/-! ## Claim C7: lemmas about the untyped dict operations -/

theorem pdictLookup_assign_self (d : PDict) (k : String) (v : PVal) :
    pdictLookup (pdictAssign d k v) k = some v := by
  unfold pdictAssign
  by_cases hk : d.any (fun e => e.1 = k)
  · rw [if_pos hk]
    unfold pdictLookup
    induction d with
    | nil => simp at hk
    | cons e rest ih =>
        by_cases hek : e.1 = k
        · simp [List.find?_cons_of_pos, hek]
        · rw [List.map_cons]
          rw [List.find?_cons_of_neg _ (by simp [hek])]
          have hk2 : rest.any (fun e => e.1 = k) = true := by
            rcases List.any_eq_true.mp hk with ⟨e2, he2, hk2⟩
            rcases List.mem_cons.mp he2 with heq | hrest
            · subst heq; simp [hek] at hk2
            · exact List.any_eq_true.mpr ⟨e2, hrest, hk2⟩
          exact ih hk2
  · rw [if_neg hk]
    unfold pdictLookup
    induction d with
    | nil => simp
    | cons e rest ih =>
        have hek : ¬(e.1 = k) := by
          intro heq
          exact hk (List.any_eq_true.mpr ⟨e, List.mem_cons_self e rest, by simp [heq]⟩)
        rw [List.cons_append, List.find?_cons_of_neg _ (by simp [hek])]
        exact ih (fun h2 => hk (by
          rcases List.any_eq_true.mp h2 with ⟨e2, he2, hk2⟩
          exact List.any_eq_true.mpr ⟨e2, List.mem_cons_of_mem e he2, hk2⟩))

theorem pdictLookup_assign_other (d : PDict) (k k2 : String) (v : PVal) (hne : k2 ≠ k) :
    pdictLookup (pdictAssign d k v) k2 = pdictLookup d k2 := by
  unfold pdictAssign
  by_cases hk : d.any (fun e => e.1 = k)
  · rw [if_pos hk]
    unfold pdictLookup
    clear hk
    induction d with
    | nil => rfl
    | cons e rest ih =>
        rw [List.map_cons]
        by_cases hek : e.1 = k
        · rw [List.find?_cons_of_neg _ (by simp [hek, Ne.symm hne]),
            List.find?_cons_of_neg _ (by simp [hek, Ne.symm hne])]
          exact ih
        · by_cases he2 : e.1 = k2
          · rw [if_neg hek]
            rw [List.find?_cons_of_pos _ (by simp [he2]),
              List.find?_cons_of_pos _ (by simp [he2])]
          · rw [if_neg hek]
            rw [List.find?_cons_of_neg _ (by simp [he2]),
              List.find?_cons_of_neg _ (by simp [he2])]
            exact ih
  · rw [if_neg hk]
    unfold pdictLookup
    rw [List.find?_append]
    have h2 : ([(k, v)].find? (fun e => e.1 = k2)) = none := by
      simp [Ne.symm hne]
    rw [h2]
    cases d.find? (fun e => e.1 = k2) <;> rfl

theorem any_of_pdictLookup (d : PDict) (k : String) (v : PVal)
    (h : pdictLookup d k = some v) : d.any (fun e => e.1 = k) = true := by
  unfold pdictLookup at h
  cases hf : d.find? (fun e => e.1 = k) with
  | none => rw [hf] at h; simp at h
  | some e =>
      have he := List.mem_of_find?_eq_some hf
      have hk := List.find?_some hf
      exact List.any_eq_true.mpr ⟨e, he, hk⟩

theorem mem_pdictAssign_cases (d : PDict) (k : String) (v : PVal) (e : String × PVal)
    (h : e ∈ pdictAssign d k v) : e = (k, v) ∨ (e ∈ d ∧ ¬(e.1 = k)) := by
  unfold pdictAssign at h
  by_cases hk : d.any (fun e2 => e2.1 = k)
  · rw [if_pos hk] at h
    obtain ⟨e2, he2, heq⟩ := List.mem_map.mp h
    by_cases hek : e2.1 = k
    · rw [if_pos hek] at heq
      exact Or.inl heq.symm
    · rw [if_neg hek] at heq
      subst heq
      exact Or.inr ⟨he2, hek⟩
  · rw [if_neg hk] at h
    rcases List.mem_append.mp h with hd | hone
    · refine Or.inr ⟨hd, ?_⟩
      intro hek
      exact hk (List.any_eq_true.mpr ⟨e, hd, by simp [hek]⟩)
    · simp at hone
      exact Or.inl hone

theorem pdictAssign_all_eq (d : PDict) (k : String) (v : PVal) :
    ∀ e ∈ pdictAssign d k v, e.1 = k → e.2 = v := by
  intro e he hek
  rcases mem_pdictAssign_cases d k v e he with heq | ⟨_, hne⟩
  · rw [heq]
  · exact absurd hek hne

theorem pdictAssign_all_eq_other (d : PDict) (k k2 : String) (v v2 : PVal) (hne : k ≠ k2)
    (h : ∀ e ∈ d, e.1 = k → e.2 = v) :
    ∀ e ∈ pdictAssign d k2 v2, e.1 = k → e.2 = v := by
  intro e he hek
  rcases mem_pdictAssign_cases d k2 v2 e he with heq | ⟨hd, _⟩
  · rw [heq] at hek
    exact absurd hek.symm hne
  · exact h e hd hek

theorem pdictAssign_of_all_eq (d : PDict) (k : String) (v : PVal)
    (hany : d.any (fun e => e.1 = k) = true)
    (h : ∀ e ∈ d, e.1 = k → e.2 = v) : pdictAssign d k v = d := by
  unfold pdictAssign
  rw [if_pos hany]
  have hpt : ∀ e ∈ d, (if e.1 = k then (k, v) else e) = id e := by
    intro e he
    simp only [id]
    by_cases hek : e.1 = k
    · rw [if_pos hek]
      have := h e he hek
      rw [← this, ← hek]
    · rw [if_neg hek]
  rw [List.map_congr_left hpt, List.map_id]

theorem pdictAssign_keys_nodup (d : PDict) (k : String) (v : PVal)
    (h : (d.map Prod.fst).Nodup) : ((pdictAssign d k v).map Prod.fst).Nodup := by
  unfold pdictAssign
  by_cases hk : d.any (fun e => e.1 = k)
  · rw [if_pos hk]
    have hmap : (d.map (fun e => if e.1 = k then (k, v) else e)).map Prod.fst
        = d.map Prod.fst := by
      rw [List.map_map]
      apply List.map_congr_left
      intro e _
      by_cases hek : e.1 = k
      · simp [hek]
      · simp [hek]
    rw [hmap]
    exact h
  · rw [if_neg hk]
    rw [List.map_append]
    have hknot : k ∉ d.map Prod.fst := by
      intro hkin
      obtain ⟨e, he, hek⟩ := List.mem_map.mp hkin
      exact hk (List.any_eq_true.mpr ⟨e, he, by simp [hek]⟩)
    simp [List.nodup_append, h, hknot]

theorem any_eq_false_of_not_mem_keys (d : PDict) (k : String) (h : k ∉ d.map Prod.fst) :
    d.any (fun e => e.1 = k) = false := by
  rw [List.any_eq_false]
  intro e he
  intro hek
  simp only [decide_eq_true_eq] at hek
  exact h (List.mem_map.mpr ⟨e, he, hek⟩)

theorem toNat_ofNat_small (n : Nat) (h : n < 55296) : (Char.ofNat n).toNat = n := by
  unfold Char.ofNat
  rw [dif_pos (Or.inl h : n.isValidChar)]
  rfl

theorem pyLowerChar_idem (c : Char) : pyLowerChar (pyLowerChar c) = pyLowerChar c := by
  unfold pyLowerChar
  by_cases h : 65 ≤ c.toNat ∧ c.toNat ≤ 90
  · rw [if_pos h]
    have htn : (Char.ofNat (c.toNat + 32)).toNat = c.toNat + 32 :=
      toNat_ofNat_small _ (by omega)
    rw [if_neg (by rw [htn]; omega)]
  · rw [if_neg h, if_neg h]

theorem pyLower_idem (s : String) : pyLower (pyLower s) = pyLower s := by
  unfold pyLower
  have h1 : ((s.toList.map pyLowerChar).asString).toList = s.toList.map pyLowerChar := rfl
  rw [h1, List.map_map]
  congr 1
  apply List.map_congr_left
  intro c _
  exact pyLowerChar_idem c

theorem lowerBuild_keys_fixed (l : List (String × PVal)) :
    ∀ acc : PDict, (∀ k ∈ acc.map Prod.fst, pyLower k = k) →
      ∀ k ∈ (l.foldl (fun acc e => pdictAssign acc (pyLower e.1) e.2) acc).map Prod.fst,
        pyLower k = k := by
  induction l with
  | nil => intro acc hacc; exact hacc
  | cons e rest ih =>
      intro acc hacc
      simp only [List.foldl_cons]
      apply ih
      intro k hk
      obtain ⟨e2, he2, hk2⟩ := List.mem_map.mp hk
      rcases mem_pdictAssign_cases acc (pyLower e.1) e.2 e2 he2 with heq | ⟨hin, _⟩
      · rw [← hk2, heq]
        exact pyLower_idem e.1
      · exact hacc k (List.mem_map.mpr ⟨e2, hin, hk2⟩)

theorem lowerBuild_keys_nodup (l : List (String × PVal)) :
    ∀ acc : PDict, ((acc.map Prod.fst).Nodup) →
      ((l.foldl (fun acc e => pdictAssign acc (pyLower e.1) e.2) acc).map Prod.fst).Nodup := by
  induction l with
  | nil => intro acc hacc; exact hacc
  | cons e rest ih =>
      intro acc hacc
      simp only [List.foldl_cons]
      exact ih _ (pdictAssign_keys_nodup acc (pyLower e.1) e.2 hacc)

theorem lowerBuild_eq_self (l : List (String × PVal)) :
    ∀ acc : PDict, (l.map Prod.fst).Nodup → (∀ e ∈ l, pyLower e.1 = e.1) →
      (∀ k ∈ l.map Prod.fst, k ∉ acc.map Prod.fst) →
      l.foldl (fun acc e => pdictAssign acc (pyLower e.1) e.2) acc = acc ++ l := by
  induction l with
  | nil => intro acc _ _ _; simp
  | cons e rest ih =>
      intro acc hnd hfix hdisj
      simp only [List.foldl_cons]
      have hfe : pyLower e.1 = e.1 := hfix e (List.mem_cons_self e rest)
      rw [hfe]
      have habs : acc.any (fun e2 => e2.1 = e.1) = false :=
        any_eq_false_of_not_mem_keys acc e.1 (hdisj e.1 (by simp))
      have hassign : pdictAssign acc e.1 e.2 = acc ++ [e] := by
        unfold pdictAssign
        rw [if_neg (by rw [habs]; simp)]
      rw [hassign]
      simp only [List.map_cons, List.nodup_cons] at hnd
      have hrec := ih (acc ++ [e]) hnd.2 (fun e2 he2 => hfix e2 (List.mem_cons_of_mem e he2)) ?_
      · rw [hrec]
        simp
      · intro k hk
        rw [List.map_append, List.mem_append]
        rintro (hka | hke)
        · exact hdisj k (by simp [hk]) hka
        · simp at hke
          rw [hke] at hk
          exact hnd.1 hk

theorem bind_ok_destruct {α β : Type} (x : Except String α) (f : α → Except String β) (b : β)
    (h : (x >>= f) = .ok b) : ∃ a, x = .ok a ∧ f a = .ok b := by
  cases x with
  | error e => simp [Bind.bind, Except.bind] at h
  | ok a => exact ⟨a, rfl, by simpa [Bind.bind, Except.bind] using h⟩

theorem lowerKeysStep_ok (d : PDict) (k : String) (d2 : PDict)
    (h : lowerKeysStep d k = .ok d2) :
    ∃ entries, pdictLookup d k = some (.pdict entries)
      ∧ d2 = pdictAssign d k
          (.pdict (entries.foldl (fun acc e => pdictAssign acc (pyLower e.1) e.2) [])) := by
  unfold lowerKeysStep at h
  cases hl : pdictLookup d k with
  | none => rw [hl] at h; simp at h
  | some v =>
      rw [hl] at h
      cases v with
      | pdict entries =>
          refine ⟨entries, rfl, ?_⟩
          unfold pyLowerDict at h
          simp [Except.map] at h
          exact h.symm
      | pstr s => simp [pyLowerDict, Except.map] at h
      | pint n => simp [pyLowerDict, Except.map] at h
      | plist l => simp [pyLowerDict, Except.map] at h
      | pregex r => simp [pyLowerDict, Except.map] at h

theorem compileAtList_ok (d : PDict) (k : String) (d2 : PDict)
    (h : compileAtList d k = .ok d2) :
    ∃ items2, d2 = pdictAssign d k (.plist items2) := by
  unfold compileAtList at h
  cases hl : pdictLookup d k with
  | none => rw [hl] at h; simp at h
  | some v =>
      rw [hl] at h
      cases v with
      | plist items =>
          dsimp only at h
          simp only [compileListValues] at h
          cases hm : items.mapM preparePattern with
          | error e => rw [hm] at h; simp [Except.map] at h
          | ok items2 =>
              rw [hm] at h
              simp [Except.map] at h
              exact ⟨items2, h.symm⟩
      | pstr s => dsimp only at h; simp [compileListValues, Except.map] at h
      | pint n => dsimp only at h; simp [compileListValues, Except.map] at h
      | pdict es => dsimp only at h; simp [compileListValues, Except.map] at h
      | pregex r => dsimp only at h; simp [compileListValues, Except.map] at h

theorem mapM_compile_keys (entries : List (String × PVal)) :
    ∀ entries2, entries.mapM (fun e => (preparePattern e.2).map (fun p => (e.1, p)))
        = .ok entries2 →
      entries2.map Prod.fst = entries.map Prod.fst := by
  induction entries with
  | nil =>
      intro entries2 h
      have h2 : (Except.ok ([] : List (String × PVal)) : Except String (List (String × PVal)))
          = .ok entries2 := h
      simp only [Except.ok.injEq] at h2
      rw [← h2]
  | cons e rest ih =>
      intro entries2 h
      rw [List.mapM_cons] at h
      cases hp : preparePattern e.2 with
      | error ea => rw [hp] at h; simp [Bind.bind, Except.bind, Except.map] at h
      | ok pv =>
          rw [hp] at h
          cases hr : rest.mapM (fun e => (preparePattern e.2).map (fun p => (e.1, p))) with
          | error eb => rw [hr] at h; simp [Bind.bind, Except.bind, Except.map] at h
          | ok rest2 =>
              rw [hr] at h
              simp [Bind.bind, Except.bind, Except.map, pure, Except.pure] at h
              rw [← h]
              simp only [List.map_cons]
              rw [ih rest2 hr]

theorem compileAtDict_ok (d : PDict) (k : String) (d2 : PDict)
    (h : compileAtDict d k = .ok d2) :
    ∃ entries entries2, pdictLookup d k = some (.pdict entries)
      ∧ entries2.map Prod.fst = entries.map Prod.fst
      ∧ d2 = pdictAssign d k (.pdict entries2) := by
  unfold compileAtDict at h
  cases hl : pdictLookup d k with
  | none => rw [hl] at h; simp at h
  | some v =>
      rw [hl] at h
      cases v with
      | pdict entries =>
          dsimp only at h
          simp only [compileDictValues] at h
          cases hm : entries.mapM (fun e => (preparePattern e.2).map (fun p => (e.1, p))) with
          | error e2 => rw [hm] at h; simp [Except.map] at h
          | ok entries2 =>
              rw [hm] at h
              simp [Except.map] at h
              exact ⟨entries, entries2, rfl, mapM_compile_keys entries entries2 hm, h.symm⟩
      | pstr s => dsimp only at h; simp [compileDictValues, Except.map] at h
      | pint n => dsimp only at h; simp [compileDictValues, Except.map] at h
      | plist l => dsimp only at h; simp [compileDictValues, Except.map] at h
      | pregex r => dsimp only at h; simp [compileDictValues, Except.map] at h

theorem listify_lookup_self (d : PDict) (k : String) :
    ∃ items, pdictLookup (listifyKey d k) k = some (.plist items) := by
  unfold listifyKey
  cases hl : pdictLookup d k with
  | none => exact ⟨[], pdictLookup_assign_self d k _⟩
  | some v =>
      cases v with
      | plist items => exact ⟨items, hl⟩
      | pstr s => exact ⟨[.pstr s], pdictLookup_assign_self d k _⟩
      | pint n => exact ⟨[.pint n], pdictLookup_assign_self d k _⟩
      | pdict es => exact ⟨[.pdict es], pdictLookup_assign_self d k _⟩
      | pregex r => exact ⟨[.pregex r], pdictLookup_assign_self d k _⟩

theorem listify_lookup_other (d : PDict) (k k2 : String) (hne : k2 ≠ k) :
    pdictLookup (listifyKey d k) k2 = pdictLookup d k2 := by
  unfold listifyKey
  cases hl : pdictLookup d k with
  | none => exact pdictLookup_assign_other d k k2 _ hne
  | some v =>
      cases v with
      | plist items => rfl
      | pstr s => exact pdictLookup_assign_other d k k2 _ hne
      | pint n => exact pdictLookup_assign_other d k k2 _ hne
      | pdict es => exact pdictLookup_assign_other d k k2 _ hne
      | pregex r => exact pdictLookup_assign_other d k k2 _ hne

theorem listify_noop (d : PDict) (k : String) (items : List PVal)
    (h : pdictLookup d k = some (.plist items)) : listifyKey d k = d := by
  unfold listifyKey
  rw [h]

theorem default_noop (d : PDict) (k : String) (v : PVal) (h : pdictLookup d k = some v) :
    defaultDictKey d k = d := by
  unfold defaultDictKey
  rw [h]

theorem default_lookup_other (d : PDict) (k k2 : String) (hne : k2 ≠ k) :
    pdictLookup (defaultDictKey d k) k2 = pdictLookup d k2 := by
  unfold defaultDictKey
  cases hl : pdictLookup d k with
  | none => exact pdictLookup_assign_other d k k2 _ hne
  | some v => rfl

theorem wrap_noop (d : PDict) (entries : List (String × PVal))
    (h : pdictLookup d ("meta") = some (.pdict entries)) : wrapMetaGenerator d = d := by
  unfold wrapMetaGenerator
  rw [h]

theorem wrap_lookup_other (d : PDict) (k2 : String) (hne : k2 ≠ ("meta")) :
    pdictLookup (wrapMetaGenerator d) k2 = pdictLookup d k2 := by
  unfold wrapMetaGenerator
  cases hl : pdictLookup d ("meta") with
  | none => rfl
  | some v =>
      cases v with
      | pdict es => rfl
      | pstr s => exact pdictLookup_assign_other d _ k2 _ hne
      | pint n => exact pdictLookup_assign_other d _ k2 _ hne
      | plist l => exact pdictLookup_assign_other d _ k2 _ hne
      | pregex r => exact pdictLookup_assign_other d _ k2 _ hne

theorem lowerKeysStep_noop (d : PDict) (k : String) (E : List (String × PVal))
    (h : pdictLookup d k = some (.pdict E))
    (hfix : ∀ key ∈ E.map Prod.fst, pyLower key = key)
    (hnd : (E.map Prod.fst).Nodup)
    (hall : ∀ e ∈ d, e.1 = k → e.2 = .pdict E) :
    lowerKeysStep d k = .ok d := by
  unfold lowerKeysStep
  rw [h]
  unfold pyLowerDict
  dsimp only
  have hfold : E.foldl (fun acc e => pdictAssign acc (pyLower e.1) e.2) [] = E := by
    have h2 := lowerBuild_eq_self E [] hnd
      (fun e he => hfix e.1 (List.mem_map.mpr ⟨e, he, rfl⟩)) (by simp)
    simpa using h2
  rw [hfold]
  rw [show Except.map (fun v2 => pdictAssign d k v2) (Except.ok (PVal.pdict E))
    = Except.ok (pdictAssign d k (PVal.pdict E)) from rfl]
  rw [pdictAssign_of_all_eq d k _ (any_of_pdictLookup d k _ h) hall]

/-- Counterexample for claim C7 as stated: normalization is not
re-applicable, let alone idempotent: prepare_app on a raw entry with
one url pattern succeeds, but prepare_app on the already-normalized
entry raises AttributeError, because pattern compilation calls split
on the attribute dicts occupying the pattern slots. -/
theorem c7_counterexample :
    prepareApp rawEntry = .ok preparedEntry
    ∧ prepareApp preparedEntry = .error ("AttributeError: object has no attribute split") :=
  ⟨rfl, rfl⟩

/-- Claim C7 (amended): the shape-normalization half of prepare_app
(list coercion, headers and meta defaulting, generator wrapping, key
lower-casing) is idempotent: reapplied to any successfully prepared
entry it returns the entry unchanged.  Full normalization including
pattern compilation is not re-applicable (see the counterexample). -/
theorem c7_shape_idem (app app2 : PDict) (h : prepareApp app = .ok app2) :
    shapeNormalizeApp app2 = .ok app2 := by
  unfold prepareApp at h
  obtain ⟨s, hs, hc⟩ := bind_ok_destruct _ _ _ h
  unfold shapeNormalizeApp at hs
  dsimp only at hs
  obtain ⟨s3, hs3, hsm⟩ := bind_ok_destruct _ _ _ hs
  obtain ⟨Eh0, hlookXh, hs3eq⟩ := lowerKeysStep_ok _ _ _ hs3
  obtain ⟨Em0, hlookS3m, hseq⟩ := lowerKeysStep_ok _ _ _ hsm
  unfold compileApp at hc
  obtain ⟨d1, hd1, hc1⟩ := bind_ok_destruct _ _ _ hc
  obtain ⟨d2, hd2, hc2⟩ := bind_ok_destruct _ _ _ hc1
  obtain ⟨d3, hd3, hc3⟩ := bind_ok_destruct _ _ _ hc2
  obtain ⟨d4, hd4, hc4⟩ := bind_ok_destruct _ _ _ hc3
  obtain ⟨u2, hd1eq⟩ := compileAtList_ok _ _ _ hd1
  obtain ⟨hl2, hd2eq⟩ := compileAtList_ok _ _ _ hd2
  obtain ⟨sc2, hd3eq⟩ := compileAtList_ok _ _ _ hd3
  obtain ⟨eh, he2, hlookd3h, hkeysh, hd4eq⟩ := compileAtDict_ok _ _ _ hd4
  obtain ⟨em, me2, hlookd4m, hkeysm, happ2eq⟩ := compileAtDict_ok _ _ _ hc4
  -- lookups at the shape-normalized entry s
  have hs_headers : pdictLookup s ("headers")
      = some (.pdict (Eh0.foldl (fun acc e => pdictAssign acc (pyLower e.1) e.2) [])) := by
    rw [hseq, pdictLookup_assign_other _ _ _ _ (by decide), hs3eq]
    exact pdictLookup_assign_self _ _ _
  have hs_meta : pdictLookup s ("meta")
      = some (.pdict (Em0.foldl (fun acc e => pdictAssign acc (pyLower e.1) e.2) [])) := by
    rw [hseq]
    exact pdictLookup_assign_self _ _ _
  have hs_implies : ∃ impl, pdictLookup s ("implies") = some (.plist impl) := by
    rw [hseq, pdictLookup_assign_other _ _ _ _ (by decide), hs3eq,
      pdictLookup_assign_other _ _ _ _ (by decide),
      wrap_lookup_other _ _ (by decide),
      default_lookup_other _ _ _ (by decide),
      default_lookup_other _ _ _ (by decide)]
    exact listify_lookup_self _ _
  obtain ⟨impl, hs_impl⟩ := hs_implies
  -- identify the dict entries seen by the compile steps
  have hcomph : pdictLookup d3 ("headers")
      = some (.pdict (Eh0.foldl (fun acc e => pdictAssign acc (pyLower e.1) e.2) [])) := by
    rw [hd3eq, pdictLookup_assign_other _ _ _ _ (by decide), hd2eq,
      pdictLookup_assign_other _ _ _ _ (by decide), hd1eq,
      pdictLookup_assign_other _ _ _ _ (by decide)]
    exact hs_headers
  have heh : eh = Eh0.foldl (fun acc e => pdictAssign acc (pyLower e.1) e.2) [] := by
    have h2 := hlookd3h.symm.trans hcomph
    simpa using h2
  have hcompm : pdictLookup d4 ("meta")
      = some (.pdict (Em0.foldl (fun acc e => pdictAssign acc (pyLower e.1) e.2) [])) := by
    rw [hd4eq, pdictLookup_assign_other _ _ _ _ (by decide), hd3eq,
      pdictLookup_assign_other _ _ _ _ (by decide), hd2eq,
      pdictLookup_assign_other _ _ _ _ (by decide), hd1eq,
      pdictLookup_assign_other _ _ _ _ (by decide)]
    exact hs_meta
  have hem : em = Em0.foldl (fun acc e => pdictAssign acc (pyLower e.1) e.2) [] := by
    have h2 := hlookd4m.symm.trans hcompm
    simpa using h2
  -- lookups at the compiled entry app2
  have aUrl : pdictLookup app2 ("url") = some (.plist u2) := by
    rw [happ2eq, pdictLookup_assign_other _ _ _ _ (by decide), hd4eq,
      pdictLookup_assign_other _ _ _ _ (by decide), hd3eq,
      pdictLookup_assign_other _ _ _ _ (by decide), hd2eq,
      pdictLookup_assign_other _ _ _ _ (by decide), hd1eq]
    exact pdictLookup_assign_self _ _ _
  have aHtml : pdictLookup app2 ("html") = some (.plist hl2) := by
    rw [happ2eq, pdictLookup_assign_other _ _ _ _ (by decide), hd4eq,
      pdictLookup_assign_other _ _ _ _ (by decide), hd3eq,
      pdictLookup_assign_other _ _ _ _ (by decide), hd2eq]
    exact pdictLookup_assign_self _ _ _
  have aScript : pdictLookup app2 ("script") = some (.plist sc2) := by
    rw [happ2eq, pdictLookup_assign_other _ _ _ _ (by decide), hd4eq,
      pdictLookup_assign_other _ _ _ _ (by decide), hd3eq]
    exact pdictLookup_assign_self _ _ _
  have aImpl : pdictLookup app2 ("implies") = some (.plist impl) := by
    rw [happ2eq, pdictLookup_assign_other _ _ _ _ (by decide), hd4eq,
      pdictLookup_assign_other _ _ _ _ (by decide), hd3eq,
      pdictLookup_assign_other _ _ _ _ (by decide), hd2eq,
      pdictLookup_assign_other _ _ _ _ (by decide), hd1eq,
      pdictLookup_assign_other _ _ _ _ (by decide)]
    exact hs_impl
  have aHeaders : pdictLookup app2 ("headers") = some (.pdict he2) := by
    rw [happ2eq, pdictLookup_assign_other _ _ _ _ (by decide), hd4eq]
    exact pdictLookup_assign_self _ _ _
  have aMeta : pdictLookup app2 ("meta") = some (.pdict me2) := by
    rw [happ2eq]
    exact pdictLookup_assign_self _ _ _
  -- every occurrence of the headers and meta keys carries the value
  have aeHeaders : ∀ e ∈ app2, e.1 = ("headers") → e.2 = .pdict he2 := by
    rw [happ2eq]
    refine pdictAssign_all_eq_other _ _ _ _ _ (by decide) ?_
    rw [hd4eq]
    exact pdictAssign_all_eq _ _ _
  have aeMeta : ∀ e ∈ app2, e.1 = ("meta") → e.2 = .pdict me2 := by
    rw [happ2eq]
    exact pdictAssign_all_eq _ _ _
  -- key properties of the compiled header and meta dicts
  have hfixh : ∀ key ∈ he2.map Prod.fst, pyLower key = key := by
    intro key hk
    rw [hkeysh, heh] at hk
    exact lowerBuild_keys_fixed Eh0 [] (by simp) key hk
  have hndh : (he2.map Prod.fst).Nodup := by
    rw [hkeysh, heh]
    exact lowerBuild_keys_nodup Eh0 [] (by simp)
  have hfixm : ∀ key ∈ me2.map Prod.fst, pyLower key = key := by
    intro key hk
    rw [hkeysm, hem] at hk
    exact lowerBuild_keys_fixed Em0 [] (by simp) key hk
  have hndm : (me2.map Prod.fst).Nodup := by
    rw [hkeysm, hem]
    exact lowerBuild_keys_nodup Em0 [] (by simp)
  -- reapply the shape normalization: every step is a no-op
  unfold shapeNormalizeApp
  dsimp only
  rw [listify_noop _ _ _ aUrl, listify_noop _ _ _ aHtml, listify_noop _ _ _ aScript,
    listify_noop _ _ _ aImpl, default_noop _ _ _ aHeaders, default_noop _ _ _ aMeta,
    wrap_noop _ _ aMeta]
  rw [lowerKeysStep_noop app2 ("headers") he2 aHeaders hfixh hndh aeHeaders]
  show lowerKeysStep app2 ("meta") = Except.ok app2
  exact lowerKeysStep_noop app2 ("meta") me2 aMeta hfixm hndm aeMeta

/-- Witness for claim C7: the amended theorem applied to the concrete
prepared entry of the counterexample. -/
theorem c7_witness : shapeNormalizeApp preparedEntry = .ok preparedEntry :=
  c7_shape_idem rawEntry preparedEntry rfl
